import Mathlib

/-!
# yatm: time specification parsers, control surface and backend dispatch

A shallow embedding of `src/yatm.cc`.

Conventions of the embedding.

* A C string is a `List Char`; the byte under a pointer is `peek`, which is the
  terminating NUL at the end of the list (an embedded NUL behaves as the
  terminator, as in C).
* `long` and `unsigned long` are 64 bit wide (LP64): `strtol` saturates at
  `LONG_MIN`/`LONG_MAX`, `unsigned long` arithmetic is taken modulo `2^64`.
* Loops are run with a fuel counter; a run that exhausts the fuel is reported
  by `Scan.starved`/`none`, and the fuel handed out is shown to suffice.
-/

namespace Yatm

/-! ## C library: characters and `strtol` -/

/-- The character under a `char const *`: the terminating NUL at the end. -/
def peek : List Char → Char
  | [] => Char.ofNat 0
  | c :: _ => c

/-- The `isspace` of the C locale: space, `\t`, `\n`, `\v`, `\f`, `\r`. -/
def isspace (c : Char) : Bool :=
  c.toNat = 32 || (9 ≤ c.toNat && c.toNat ≤ 13)

/-- The test `c >= '0' && c <= '9'`. -/
def isdigit (c : Char) : Bool :=
  48 ≤ c.toNat && c.toNat ≤ 57

/-- Value of a decimal digit character. -/
def digitVal (c : Char) : Nat := c.toNat - 48

def LONG_MAX : Int := 2 ^ 63 - 1

def LONG_MIN : Int := -(2 ^ 63)

/-- Modulus of `unsigned long` arithmetic. -/
def ULONG_MOD : Nat := 2 ^ 64

/-- The loop `while (isspace(*str)) ++str;`. -/
def skipSpace : List Char → List Char
  | [] => []
  | c :: cs => if isspace c then skipSpace cs else c :: cs

/-- The digit run read by `strtol`: accumulated value and the rest. -/
def scanDigits (acc : Nat) : List Char → Nat × List Char
  | [] => (acc, [])
  | c :: cs => if isdigit c then scanDigits (acc * 10 + digitVal c) cs else (acc, c :: cs)

/-- The call `strtol(str, &end, 10)`: skips white space, takes an optional sign and a
run of digits; saturates at the range of `long`; when there is no digit the
value is 0 and `end` is `str`. Returns the value and `end`. -/
def strtol (str : List Char) : Int × List Char :=
  let s := skipSpace str
  let t := if peek s = '-' ∨ peek s = '+' then s.tail else s
  if isdigit (peek t) then
    let r := scanDigits 0 t
    (if peek s = '-' then max LONG_MIN (-(r.1 : Int)) else min LONG_MAX (r.1 : Int), r.2)
  else (0, str)

/-- Outcome of a scanning loop: its result, the C `return -1`, or fuel
exhausted. -/
inductive Scan (α : Type) where
  | done (a : α)
  | bad
  | starved
deriving DecidableEq, Repr

/-! ## Rational timer -/

/-- Modelled from the spec: `mad_timer_t` of the external MPEG audio library
(`mad.h`, not part of the sources) is the "rational (seconds, fraction,
fracpart)" time of the spec; it is modelled by the exact rational number of
seconds it stands for. -/
abbrev mad_timer_t := ℚ

/-- Modelled from the spec: the zero time. -/
def mad_timer_zero : mad_timer_t := 0

/-- Modelled from the spec: the time `seconds + fraction / fracpart`; a zero
`fracpart` contributes no fractional part. -/
def mad_timer_set (seconds fraction fracpart : Nat) : mad_timer_t :=
  if fracpart = 0 then (seconds : ℚ) else (seconds : ℚ) + (fraction : ℚ) / (fracpart : ℚ)

/-- Modelled from the spec: negation of a time. -/
def mad_timer_negate (t : mad_timer_t) : mad_timer_t := -t

/-- Modelled from the spec: sum of two times. -/
def mad_timer_add (t incr : mad_timer_t) : mad_timer_t := t + incr

/-! ## Double precision arithmetic -/

/-- The operations on `double` used by the sources, over a carrier `D`. -/
structure DoubleOps (D : Type) where
  /-- the constant `0` -/
  zero : D
  /-- conversion `unsigned long → double` -/
  ofULong : Nat → D
  /-- the sum `a + b` -/
  add : D → D → D
  /-- the quotient `a / b` -/
  div : D → D → D
  /-- the product `a * -1` -/
  neg : D → D
  /-- the frame count `(sf_count_t)(time * samplerate)` -/
  toFrames : D → Int → Int

/-- Round to the nearest integer, ties to the even one. -/
def roundHalfEven (q : ℚ) : Int :=
  let f := Rat.floor q
  let r := q - (f : ℚ)
  if r < 1 / 2 then f else if 1 / 2 < r then f + 1 else if f % 2 = 0 then f else f + 1

/-- The power `2 ^ e` for an integer exponent. -/
def pow2 (e : Int) : ℚ :=
  if 0 ≤ e then ((2 ^ e.toNat : Nat) : ℚ) else 1 / ((2 ^ (-e).toNat : Nat) : ℚ)

/-- Number of binary digits of `n`, by repeated halving (`fuel` steps). -/
def bitLen : Nat → Nat → Nat
  | 0, _ => 0
  | fuel + 1, n => if n = 0 then 0 else bitLen fuel (n / 2) + 1

/-- The binary exponent `⌊log₂ |q|⌋` of a non-zero rational. -/
def ilog2 (q : ℚ) : Int :=
  let e : Int := (bitLen q.num.natAbs q.num.natAbs : Int) - (bitLen q.den q.den : Int)
  if pow2 e ≤ |q| then e else e - 1

/-- Rounding of a real value to a binary floating-point format with `p`
significant bits, round to nearest, ties to even (the IEEE 754 default). The
exponent range is not bounded: the result is the IEEE one wherever that is a
normal number. -/
def roundToPrec (p : Nat) (q : ℚ) : ℚ :=
  if q = 0 then 0
  else
    let e := ilog2 q - ((p : Int) - 1)
    (roundHalfEven (q / pow2 e) : ℚ) * pow2 e

/-- Rounding to `double` (53 significant bits). -/
def toDouble (q : ℚ) : ℚ := roundToPrec 53 q

/-- Rounding to `float` (24 significant bits). -/
def toFloat (q : ℚ) : ℚ := roundToPrec 24 q

/-- Conversion of a real value to an integer type: truncation toward zero. -/
def truncToInt (q : ℚ) : Int :=
  if 0 ≤ q then Rat.floor q else -Rat.floor (-q)

/-- IEEE 754 `double` arithmetic on finite values, each operation rounding
the exact result; it stands for the machine arithmetic wherever no operation
overflows or divides by zero. -/
def ieee_double : DoubleOps ℚ where
  zero := 0
  ofULong := fun n => toDouble (n : ℚ)
  add := fun a b => toDouble (a + b)
  div := fun a b => toDouble (a / b)
  neg := fun a => -a
  toFrames := fun time rate => truncToInt (toDouble (time * (rate : ℚ)))

/-! ## The time parsers -/

/-- The sign `switch` at the head of a term: `(minus, str)`. -/
def sign_switch (str : List Char) : Bool × List Char :=
  if peek str = '-' then (true, str.tail)
  else if peek str = '+' then (false, str.tail)
  else (false, str)

/-- The inner `do … while (*str >= '0' && *str <= '9')` loop shared by both
parsers: adds each number read to `seconds`, multiplying by 60 at a colon. -/
def colon_loop : Nat → Nat → List Char → Scan (Nat × List Char)
  | 0, _, _ => Scan.starved
  | fuel + 1, seconds, str =>
    let r := strtol str
    if r.1 < 0 then Scan.bad
    else
      let seconds := (seconds + r.1.toNat) % ULONG_MOD
      let seconds := if peek r.2 = ':' then (seconds * 60) % ULONG_MOD else seconds
      let str := if peek r.2 = ':' then r.2.tail else r.2
      if isdigit (peek str) then colon_loop fuel seconds str
      else Scan.done (seconds, str)

/-- The loop `for (fracpart = 1; str != ptr; ++str) fracpart *= 10;` run over
`n` characters. -/
def fracpart_loop : Nat → Nat
  | 0 => 1
  | n + 1 => (fracpart_loop n * 10) % ULONG_MOD

/-- One term of `parse_mad_time` after the colon loop: the `.` and `/`
branches; gives `(seconds, fraction, fracpart, str)`. -/
def mad_tail (seconds : Nat) (str : List Char) : Scan (Nat × Nat × Nat × List Char) :=
  if peek str = '.' then
    let r := strtol str.tail
    if r.1 < 0 then Scan.bad
    else Scan.done (seconds, r.1.toNat, fracpart_loop (str.tail.length - r.2.length), r.2)
  else if peek str = '/' then
    let r := strtol str.tail
    if r.1 < 0 then Scan.bad
    else Scan.done (0, seconds, r.1.toNat, r.2)
  else Scan.done (seconds, 0, 0, str)

/-- One pass through the body of the outer loop of `parse_mad_time`: the sign
switch, the colon loop, the `.` and `/` branches, `mad_timer_set` and the
negation; gives the term's `time` and the rest of the string. -/
def mad_term (str : List Char) : Scan (mad_timer_t × List Char) :=
  let sw := sign_switch str
  match colon_loop (sw.2.length + 1) 0 sw.2 with
  | Scan.starved => Scan.starved
  | Scan.bad => Scan.bad
  | Scan.done (seconds, str) =>
    match mad_tail seconds str with
    | Scan.starved => Scan.starved
    | Scan.bad => Scan.bad
    | Scan.done (seconds, fraction, fracpart, str) =>
      let time := mad_timer_set seconds fraction fracpart
      Scan.done (if sw.1 then mad_timer_negate time else time, str)

/-- The outer `do … while (*str == '-' || *str == '+')` loop of
`parse_mad_time`, adding each term to `accum`. -/
def mad_terms : Nat → mad_timer_t → List Char → Scan (mad_timer_t × List Char)
  | 0, _, _ => Scan.starved
  | fuel + 1, accum, str =>
    match mad_term str with
    | Scan.starved => Scan.starved
    | Scan.bad => Scan.bad
    | Scan.done (time, str) =>
      if peek str = '-' ∨ peek str = '+' then mad_terms fuel (mad_timer_add accum time) str
      else Scan.done (mad_timer_add accum time, str)

/-- The call `parse_mad_time(timer, str)`: the return value and the content of `*timer`
afterwards; `none` when the fuel ran out. -/
def parse_mad_time (timer : mad_timer_t) (str : List Char) : Option (Int × mad_timer_t) :=
  let str := skipSpace str
  match mad_terms (str.length + 1) mad_timer_zero str with
  | Scan.starved => none
  | Scan.bad => some (-1, timer)
  | Scan.done (accum, str) =>
    let str := skipSpace str
    if peek str ≠ Char.ofNat 0 then some (-1, timer)
    else some (0, accum)

/-- One term of `parse_double_time` after the colon loop: only the `.` branch;
gives `(fraction, fracpart, str)`. -/
def double_tail (str : List Char) : Scan (Nat × Nat × List Char) :=
  if peek str = '.' then
    let r := strtol str.tail
    if r.1 < 0 then Scan.bad
    else Scan.done (r.1.toNat, fracpart_loop (str.tail.length - r.2.length), r.2)
  else Scan.done (0, 0, str)

/-- One pass through the body of the outer loop of `parse_double_time`: the
sign switch, the colon loop, the `.` branch and the computation of `time`;
gives the term's `time` and the rest of the string. -/
def double_term {D : Type} (ops : DoubleOps D) (str : List Char) : Scan (D × List Char) :=
  let sw := sign_switch str
  match colon_loop (sw.2.length + 1) 0 sw.2 with
  | Scan.starved => Scan.starved
  | Scan.bad => Scan.bad
  | Scan.done (seconds, str) =>
    match double_tail str with
    | Scan.starved => Scan.starved
    | Scan.bad => Scan.bad
    | Scan.done (fraction, fracpart, str) =>
      let time := ops.ofULong seconds
      let time := if fraction ≠ 0 then
        ops.add time (ops.div (ops.ofULong fraction) (ops.ofULong fracpart)) else time
      Scan.done (if sw.1 then ops.neg time else time, str)

/-- The outer `do … while (*str == '-' || *str == '+')` loop of
`parse_double_time`, adding each term to `accum`. -/
def double_terms {D : Type} (ops : DoubleOps D) : Nat → D → List Char → Scan (D × List Char)
  | 0, _, _ => Scan.starved
  | fuel + 1, accum, str =>
    match double_term ops str with
    | Scan.starved => Scan.starved
    | Scan.bad => Scan.bad
    | Scan.done (time, str) =>
      if peek str = '-' ∨ peek str = '+' then double_terms ops fuel (ops.add accum time) str
      else Scan.done (ops.add accum time, str)

/-- The call `parse_double_time(timer, str)`: the return value and the content of
`*timer` afterwards; `none` when the fuel ran out. -/
def parse_double_time {D : Type} (ops : DoubleOps D) (timer : D) (str : List Char) :
    Option (Int × D) :=
  let str := skipSpace str
  match double_terms ops (str.length + 1) ops.zero str with
  | Scan.starved => none
  | Scan.bad => some (-1, timer)
  | Scan.done (accum, str) =>
    let str := skipSpace str
    if peek str ≠ Char.ofNat 0 then some (-1, timer)
    else some (0, accum)

/-! ## Process state and the control surface -/

/-- Wrap-around of `int` (32 bit two's complement) arithmetic. -/
def wrapInt (x : Int) : Int := (x + 2 ^ 31) % 2 ^ 32 - 2 ^ 31

/-- A key as returned by `SLkp_getkey`: a character, or one of the keypad
codes `SL_KEY_RIGHT`, `SL_KEY_LEFT`, `SL_KEY_UP`, `SL_KEY_DOWN`,
`SL_KEY_F(10)` of the terminal library, or any other code. -/
inductive Key where
  | chr (c : Char)
  | right
  | left
  | up
  | down
  | f10
  | other
deriving DecidableEq

/-- The disposition of a signal: the one found at start, or `signal_handler`. -/
inductive Handler where
  | original
  | signal_handler
deriving DecidableEq

/-- The state of the process that the embedded functions read and write: the
globals of `yatm.cc`, the DSP engine `st`, the input file and its descriptor,
the opened sound file, the signal dispositions and the pending keyboard
input. -/
structure World where
  /-- the global `static char quit` -/
  quit : Bool
  /-- the global `static float tempo`, as the exact value of the `float` -/
  tempo : ℚ
  /-- the global `static int pitchCentDelta` -/
  pitchCentDelta : Int
  /-- the global `static unsigned char verbosity` -/
  verbosity : Nat
  /-- argument of the last `st->setTempo` -/
  stTempo : ℚ
  /-- cents `c` of the last `st->setPitch(powf(2., c/1200.))` -/
  stPitchCents : Int
  /-- frames handed to `st->putSamples` so far -/
  putFrames : Nat
  /-- whether `audio_device` is non-NULL -/
  audio_device : Bool
  /-- whether `ao_open_live` succeeds -/
  aoAvailable : Bool
  /-- the bytes of the input file -/
  file : List Nat
  /-- the file offset of the descriptor `fd` (shared with its duplicates) -/
  fdOffset : Nat
  /-- what `sf_open_fd` finds: `none` when the library does not recognise the
  file, else `(frames, samplerate)` of `sfinfo` -/
  sfinfo : Option (Nat × Int)
  /-- read position of `sndfile`, in frames -/
  sfPos : Nat
  /-- disposition of SIGINT -/
  sigint : Handler
  /-- disposition of SIGTSTP -/
  sigtstp : Handler
  /-- keyboard input, one entry per call of `pollKeyboard`: `none` when
  `SLang_input_pending` finds nothing, else the key `SLkp_getkey` returns;
  nothing is pending once the list is used up -/
  keys : List (Option Key)

/-- The `double` constant `.01`. -/
def d_01 : ℚ := toDouble (1 / 100)

/-- The `double` constant `0.02`. -/
def d_02 : ℚ := toDouble (2 / 100)

/-- The statement `tempo += .01` on the `float` tempo: the sum is formed in `double` and
stored as `float`. -/
def tempo_up (tempo : ℚ) : ℚ := toFloat (toDouble (tempo + d_01))

/-- The statement `tempo -= .01` on the `float` tempo. -/
def tempo_down (tempo : ℚ) : ℚ := toFloat (toDouble (tempo - d_01))

/-- The `switch` of `pollKeyboard` on the key read; `seekfunc` is the seek
callback, `none` for NULL. -/
def handleKey (seekfunc : Option (ℚ → World → World)) (k : Key) (w : World) : World :=
  if k = Key.chr 'l' ∨ k = Key.right then
    match seekfunc with
    | some seek => seek 5 w
    | none => w
  else if k = Key.chr 'h' ∨ k = Key.left then
    match seekfunc with
    | some seek => seek (-5) w
    | none => w
  else if k = Key.chr '+' then
    if w.tempo < 5 then { w with tempo := tempo_up w.tempo, stTempo := tempo_up w.tempo }
    else w
  else if k = Key.chr '-' then
    if w.tempo > d_02 then { w with tempo := tempo_down w.tempo, stTempo := tempo_down w.tempo }
    else w
  else if k = Key.chr 'c' then
    { w with pitchCentDelta := wrapInt (w.pitchCentDelta - 1),
             stPitchCents := wrapInt (w.pitchCentDelta - 1) }
  else if k = Key.chr 'C' then
    if w.pitchCentDelta < 4800 then
      { w with pitchCentDelta := wrapInt (w.pitchCentDelta + 1),
               stPitchCents := wrapInt (w.pitchCentDelta + 1) }
    else w
  else if k = Key.chr 's' ∨ k = Key.down then
    { w with pitchCentDelta := wrapInt (w.pitchCentDelta - 100),
             stPitchCents := wrapInt (w.pitchCentDelta - 100) }
  else if k = Key.chr 'S' ∨ k = Key.up then
    if w.pitchCentDelta < 4701 then
      { w with pitchCentDelta := wrapInt (w.pitchCentDelta + 100),
               stPitchCents := wrapInt (w.pitchCentDelta + 100) }
    else { w with pitchCentDelta := 4800, stPitchCents := 4800 }
  else if k = Key.chr 'q' ∨ k = Key.f10 then { w with quit := true }
  else w

/-- The call `pollKeyboard(seekfunc)`: when input is pending, reads one key and acts on
it (the status line printed afterwards changes no state). -/
def pollKeyboard (seekfunc : Option (ℚ → World → World)) (w : World) : World :=
  match w.keys with
  | [] => w
  | none :: ks => { w with keys := ks }
  | some k :: ks => handleKey seekfunc k { w with keys := ks }

/-- The state in which `main` starts polling for a playback without options:
`tempo = 1.0`, `pitchCentDelta = 0`, `quit = 0`, `verbosity = 1`, on the given
file and keyboard input. -/
def World.initial (file : List Nat) (sfinfo : Option (Nat × Int)) (keys : List (Option Key)) :
    World where
  quit := false
  tempo := 1
  pitchCentDelta := 0
  verbosity := 1
  stTempo := 1
  stPitchCents := 0
  putFrames := 0
  audio_device := false
  aoAvailable := true
  file := file
  fdOffset := 0
  sfinfo := sfinfo
  sfPos := 0
  sigint := Handler.original
  sigtstp := Handler.original
  keys := keys

/-- Successive calls of `pollKeyboard`, as many as there are entries of
keyboard input. -/
def pollAll (seekfunc : Option (ℚ → World → World)) : Nat → World → World
  | 0, w => w
  | n + 1, w => pollAll seekfunc n (pollKeyboard seekfunc w)

/-! ## The sampled-file backend -/

/-- Modelled from the spec: a seek of the sound file library to frame `target`
of a file of `frames` frames is "clamped to valid range by the library". -/
def sf_seek (frames : Nat) (target : Int) : Nat :=
  if target < 0 then 0 else if (frames : Int) < target then frames else target.toNat

/-- The call `seek_sndfile(delta)`: a relative seek by
`(sf_count_t)(sfinfo.samplerate*delta)` frames, the product formed in
`float`. -/
def seek_sndfile (delta : ℚ) (w : World) : World :=
  match w.sfinfo with
  | none => w
  | some (frames, rate) =>
    let offset : Int := truncToInt (toFloat (toFloat (rate : ℚ) * delta))
    { w with sfPos := sf_seek frames ((w.sfPos : Int) + offset) }

/-- The read loop of `play_sndfile` on a file of `frames` frames:
`sf_readf_float` delivers up to 512 frames from the read position; each block,
cut down to `maxFrames - readFrames`, goes to `st->putSamples`; then the
keyboard is polled. -/
def sndfile_loop (frames : Nat) (maxFrames : Int) : Nat → Int → World → Option World
  | 0, _, _ => none
  | fuel + 1, readFrames, w =>
    let nRead : Nat := min 512 (frames - w.sfPos)
    let w := { w with sfPos := w.sfPos + nRead }
    if 0 < nRead ∧ readFrames < maxFrames then
      let nFrames : Int :=
        if readFrames + (nRead : Int) > maxFrames then maxFrames - readFrames else (nRead : Int)
      let w := { w with putFrames := w.putFrames + nFrames.toNat }
      let w := pollKeyboard (some seek_sndfile) w
      if w.quit then some w else sndfile_loop frames maxFrames fuel (readFrames + nFrames) w
    else some w

/-- The call `play_sndfile(fd, begin, end)`: the return value and the state afterwards;
`none` when the fuel ran out. When the library does not recognise the file the
descriptor is rewound and 0 is returned; otherwise 1 is returned on every
path. -/
def play_sndfile {D : Type} (ops : DoubleOps D) (begin_ end_ : Option (List Char)) (w : World) :
    Option (Int × World) :=
  match w.sfinfo with
  | none => some (0, { w with fdOffset := 0 })
  | some (frames, rate) =>
    let w := { w with sfPos := 0 }
    let afterBegin : Option (Option World) :=
      match begin_ with
      | none => some (some w)
      | some str =>
        match parse_double_time ops ops.zero str with
        | none => none
        | some (r, time) =>
          if r = -1 then some none
          else some (some { w with sfPos := sf_seek frames (ops.toFrames time rate) })
    match afterBegin with
    | none => none
    | some none => some (1, w)
    | some (some w) =>
      let afterEnd : Option (Option Int) :=
        match end_ with
        | none => some (some 0)
        | some str =>
          match parse_double_time ops ops.zero str with
          | none => none
          | some (r, time) => if r = -1 then some none else some (some (ops.toFrames time rate))
      match afterEnd with
      | none => none
      | some none => some (1, w)
      | some (some maxFrames) =>
        if w.audio_device then some (1, w)
        else if !w.aoAvailable then some (1, w)
        else
          let w := { w with audio_device := true }
          match sndfile_loop frames maxFrames (maxFrames.toNat + 1) 0 w with
          | none => none
          | some w => some (1, w)

/-! ## The Speex backend -/

/-- The fields of `SpeexHeader` that `play_speex` reads. -/
structure SpeexHeader where
  mode : Int
  speex_version_id : Int
  mode_bitstream_version : Int
  rate : Int
  nb_channels : Int
  frames_per_packet : Int
  extra_headers : Int

/-- An Ogg packet as the decoding libraries see it: what
`speex_packet_to_header` makes of it (`none` for NULL), its end-of-stream
mark, and the number of frames `speex_decode` delivers from it before it
reports the end of the packet or an error. -/
structure Packet where
  header : Option SpeexHeader
  e_o_s : Bool
  decodable : Nat

/-- The external libraries behind `play_speex`. -/
structure SpeexLib where
  /-- whether `fdopen(dup(fd), "rb")` succeeds -/
  fdopen_ok : Bool
  /-- the Ogg layer (`ogg_sync_pageout`, `ogg_stream_packetout`): the packets
  that come out once the bytes read so far, the last block included, are in the
  sync buffer -/
  packets : List Nat → List Packet
  SPEEX_NB_MODES : Int
  /-- the value `speex_mode_list[mode]->bitstream_version` -/
  bitstream_version : Int → Int
  /-- whether `speex_decoder_init` succeeds -/
  decoder_init_ok : Bool
  /-- the frame size reported by `SPEEX_GET_FRAME_SIZE` -/
  frame_size : Nat

/-- The local variables of `play_speex` that live across the loops. -/
structure SpeexState where
  packet_count : Int
  eos : Bool
  /-- whether `stc` is non-NULL -/
  stc : Bool
  total_samples : Int
  skip_samples : Int
  nframes : Int
  extra_headers : Int
  frame_size : Nat
  /-- position of the stream `fin` in the file -/
  pos : Nat
  /-- the bytes read so far -/
  fed : List Nat

/-- How a packet leaves the loops of `play_speex`. -/
inductive Flow where
  /-- on to the next packet -/
  | next (st : SpeexState) (w : World)
  /-- a `return` inside the loops -/
  | ret (code : Int) (w : World)
  /-- a `goto close` -/
  | close (st : SpeexState) (w : World)

/-- The frames of one audio packet: `n` passes through the body of the loop
`for (j=0; j!=nframes; j++)` that reach `total_samples += frame_size`. -/
def speex_frames (frame_size : Nat) (skip_samples : Int) : Nat → Int → World → Int × World
  | 0, total_samples, w => (total_samples, w)
  | n + 1, total_samples, w =>
    let w := if total_samples ≥ skip_samples then
      { w with putFrames := w.putFrames + frame_size } else w
    speex_frames frame_size skip_samples n (total_samples + (frame_size : Int)) w

/-- The body of the loop over the packets in `play_speex`. -/
def speex_packet {D : Type} (ops : DoubleOps D) (lib : SpeexLib) (begin_ : Option (List Char))
    (p : Packet) (st : SpeexState) (w : World) : Option Flow :=
  if st.packet_count = 0 then
    match p.header with
    | none => some (Flow.ret 0 { w with fdOffset := 0 })
    | some h =>
      if h.mode ≥ lib.SPEEX_NB_MODES then some (Flow.ret 1 w)
      else if h.speex_version_id > 1 then some (Flow.ret 1 w)
      else if lib.bitstream_version h.mode < h.mode_bitstream_version then some (Flow.ret 1 w)
      else if lib.bitstream_version h.mode > h.mode_bitstream_version then some (Flow.ret 1 w)
      else if !lib.decoder_init_ok then some (Flow.ret 0 { w with fdOffset := 0 })
      else
        let st := { st with stc := true, frame_size := lib.frame_size,
                            nframes := h.frames_per_packet, extra_headers := h.extra_headers }
        let skip : Option (Option Int) :=
          match begin_ with
          | none => some (some st.skip_samples)
          | some str =>
            match parse_double_time ops ops.zero str with
            | none => none
            | some (r, time) => if r = -1 then some none else some (some (ops.toFrames time h.rate))
        match skip with
        | none => none
        | some none => some (Flow.close st w)
        | some (some skip_samples) =>
          let st := { st with skip_samples := skip_samples,
                              nframes := if st.nframes = 0 then 1 else st.nframes }
          if w.audio_device then some (Flow.ret 1 w)
          else if !w.aoAvailable then some (Flow.ret 1 w)
          else some (Flow.next { st with packet_count := st.packet_count + 1 }
            { w with audio_device := true })
  else if st.packet_count = 1 then
    some (Flow.next { st with packet_count := st.packet_count + 1 } w)
  else if st.packet_count ≤ 1 + st.extra_headers then
    some (Flow.next { st with packet_count := st.packet_count + 1 } w)
  else
    let w := pollKeyboard none w
    if w.quit then some (Flow.close st w)
    else
      let st := { st with eos := st.eos || p.e_o_s }
      let n : Nat := if 0 ≤ st.nframes ∧ st.nframes ≤ (p.decodable : Int) then st.nframes.toNat
        else p.decodable
      let r := speex_frames st.frame_size st.skip_samples n st.total_samples w
      some (Flow.next { st with total_samples := r.1, packet_count := st.packet_count + 1 } r.2)

/-- The loop `while (!eos && ogg_stream_packetout(&os, &op) == 1)` over the
packets that are available. -/
def speex_packets {D : Type} (ops : DoubleOps D) (lib : SpeexLib) (begin_ : Option (List Char)) :
    List Packet → SpeexState → World → Option Flow
  | [], st, w => some (Flow.next st w)
  | p :: ps, st, w =>
    if st.eos then some (Flow.next st w)
    else
      match speex_packet ops lib begin_ p st w with
      | none => none
      | some (Flow.next st w) => speex_packets ops lib begin_ ps st w
      | some (Flow.ret code w) => some (Flow.ret code w)
      | some (Flow.close st w) => some (Flow.close st w)

/-- The label `close` of `play_speex`: without a decoder the function returns
0, else 1. -/
def speex_close (st : SpeexState) (w : World) : Int × World :=
  if st.stc then (1, w) else (0, w)

/-- The main loop `while (!feof(fin))` of `play_speex`: each pass reads up to
200 bytes, which moves the file offset shared with `fd`, and handles the
packets they complete. -/
def speex_loop {D : Type} (ops : DoubleOps D) (lib : SpeexLib) (begin_ : Option (List Char)) :
    Nat → SpeexState → World → Option (Int × World)
  | 0, _, _ => none
  | fuel + 1, st, w =>
    let data := (w.file.drop st.pos).take 200
    let st := { st with pos := st.pos + data.length, fed := st.fed ++ data }
    let w := { w with fdOffset := st.pos }
    match speex_packets ops lib begin_ (lib.packets st.fed) st w with
    | none => none
    | some (Flow.ret code w) => some (code, w)
    | some (Flow.close st w) => some (speex_close st w)
    | some (Flow.next st w) =>
      if data.length < 200 then some (speex_close st w)
      else speex_loop ops lib begin_ fuel st w

/-- The call `play_speex(fd, begin)`: the return value and the state afterwards; `none`
when the fuel ran out. The stream `fin` starts at the offset of `fd`. -/
def play_speex {D : Type} (ops : DoubleOps D) (lib : SpeexLib) (begin_ : Option (List Char))
    (w : World) : Option (Int × World) :=
  if !lib.fdopen_ok then some (0, w)
  else
    speex_loop ops lib begin_ (w.file.length + 1)
      { packet_count := 0, eos := false, stc := false, total_samples := 0, skip_samples := 0,
        nframes := 2, extra_headers := 0, frame_size := 0, pos := w.fdOffset, fed := [] } w

/-! ## The MPEG backend and `main` -/

def PLAYER_OPTION_SKIP : Nat := 0x01

def PLAYER_OPTION_TIMED : Nat := 0x02

/-- The fields of `struct player` other than the mapped bytes. -/
structure Player where
  options : Nat
  length : Nat
  absolute_time : mad_timer_t
  playback_time : mad_timer_t
  start_time : mad_timer_t
  duration : mad_timer_t

/-- The system calls and the external decoder behind `play_mpeg`. -/
structure MpegLib where
  fstat_ok : Bool
  mmap_ok : Bool
  munmap_ok : Bool
  /-- the call `mad_decoder_run(&decoder, MAD_DECODER_MODE_SYNC)` with the callbacks of
  the program: its result and the state afterwards -/
  mad_decoder_run : Player → World → Int × World

/-- The call `play_mpeg(fd, begin, end)`: the return value and the state afterwards;
`none` when the fuel ran out. -/
def play_mpeg (lib : MpegLib) (begin_ end_ : Option (List Char)) (w : World) :
    Option (Int × World) :=
  if !lib.fstat_ok || w.file.length = 0 then some (0, w)
  else if !lib.mmap_ok then some (0, w)
  else
    let player : Player :=
      { options := 0, length := w.file.length, absolute_time := mad_timer_zero,
        playback_time := mad_timer_zero, start_time := mad_timer_zero,
        duration := mad_timer_zero }
    let afterBegin : Option (Option Player) :=
      match begin_ with
      | none => some (some player)
      | some str =>
        match parse_mad_time player.start_time str with
        | none => none
        | some (r, t) =>
          if r = -1 then some none
          else some (some { player with start_time := t,
                                        options := player.options ||| PLAYER_OPTION_SKIP })
    match afterBegin with
    | none => none
    | some none => some (1, w)
    | some (some player) =>
      let afterEnd : Option (Option Player) :=
        match end_ with
        | none => some (some player)
        | some str =>
          match parse_mad_time player.duration str with
          | none => none
          | some (r, t) =>
            if r = -1 then some none
            else some (some { player with duration := t,
                                          options := player.options ||| PLAYER_OPTION_TIMED })
      match afterEnd with
      | none => none
      | some none => some (1, w)
      | some (some player) =>
        let r := lib.mad_decoder_run player w
        if !lib.munmap_ok then some (4, r.2) else some (r.1, r.2)

/-- A command line option as `getopt` delivers it; `-t` carries the `float`
that `atof` makes of its argument. -/
inductive Opt where
  | b (arg : List Char)
  | e (arg : List Char)
  | c (arg : List Char)
  | s (arg : List Char)
  | t (value : ℚ)
  | v
  | q
  | V
  | h
  | unknown

/-- The function `atoi`: the `int` read by `strtol`. -/
def atoi (str : List Char) : Int := wrapInt (strtol str).1

/-- What the option loop of `main` has gathered. -/
structure Options where
  begin_time : Option (List Char)
  end_time : Option (List Char)

/-- The `getopt` loop of `main`: `Sum.inl code` when an option ends the
program (`-V` returns 0, `-h` exits with `EXIT_FAILURE`). -/
def main_options : List Opt → Options → World → Sum Int (Options × World)
  | [], o, w => Sum.inr (o, w)
  | Opt.b arg :: rest, o, w => main_options rest { o with begin_time := some arg } w
  | Opt.e arg :: rest, o, w => main_options rest { o with end_time := some arg } w
  | Opt.c arg :: rest, o, w => main_options rest o { w with pitchCentDelta := atoi arg }
  | Opt.s arg :: rest, o, w =>
    main_options rest o { w with pitchCentDelta := wrapInt (atoi arg * 100) }
  | Opt.t value :: rest, o, w => main_options rest o { w with tempo := value }
  | Opt.v :: rest, o, w => main_options rest o { w with verbosity := (w.verbosity + 1) % 256 }
  | Opt.q :: rest, o, w => main_options rest o { w with verbosity := 0 }
  | Opt.V :: _, _, _ => Sum.inl 0
  | Opt.h :: _, _, _ => Sum.inl 1
  | Opt.unknown :: rest, o, w => main_options rest o w

/-- The environment of `main`: the libraries and the outcome of its system
calls. -/
structure Env (D : Type) where
  ops : DoubleOps D
  speex : SpeexLib
  mpeg : MpegLib
  /-- whether `open(input_file, O_RDONLY)` succeeds -/
  open_ok : Bool
  /-- the four calls of `sigaction`, in order, succeed -/
  save_sigtstp_ok : Bool
  save_sigint_ok : Bool
  set_first_ok : Bool
  set_second_ok : Bool

/-- The probing of the backends in `main`:
`if (!play_sndfile(…)) if (!play_speex(…)) play_mpeg(…);`. The results are
used for nothing else. -/
def main_dispatch {D : Type} (env : Env D) (o : Options) (w : World) : Option World :=
  match play_sndfile env.ops o.begin_time o.end_time w with
  | none => none
  | some (r1, w) =>
    if r1 ≠ 0 then some w
    else
      match play_speex env.ops env.speex o.begin_time w with
      | none => none
      | some (r2, w) =>
        if r2 ≠ 0 then some w
        else
          match play_mpeg env.mpeg o.begin_time o.end_time w with
          | none => none
          | some (_, w) => some w

/-- The function `main`: the exit status and the state at the end, for the options and the
remaining arguments of the command line; `none` when the fuel ran out. Both
calls that install `signal_handler` name `SIGTSTP`. -/
def main {D : Type} (env : Env D) (opts : List Opt) (args : List (List Char)) (w : World) :
    Option (Int × World) :=
  match main_options opts { begin_time := none, end_time := none } w with
  | Sum.inl code => some (code, w)
  | Sum.inr (o, w) =>
    match args with
    | [] => some (1, w)
    | _ :: _ :: _ => some (1, w)
    | [_] =>
      if !env.open_ok then some (1, w)
      else if !env.save_sigtstp_ok then some (1, w)
      else if !env.save_sigint_ok then some (1, w)
      else if !env.set_first_ok then some (0, w)
      else
        let w := { w with sigtstp := Handler.signal_handler }
        if !env.set_second_ok then some (0, w)
        else
          let w := { w with sigtstp := Handler.signal_handler }
          let w := { w with stPitchCents := w.pitchCentDelta, stTempo := w.tempo }
          match main_dispatch env o w with
          | none => none
          | some w => some (0, w)

/-! ## The callbacks of the MPEG decoder -/

/-- Modelled from the spec: the comparison `mad_timer_compare` of the external
MPEG audio library on exact times: -1, 0 or 1 as the first time is less than,
equal to or greater than the second. -/
def mad_timer_compare (timer1 timer2 : mad_timer_t) : Int :=
  if timer1 < timer2 then -1 else if timer1 > timer2 then 1 else 0

/-- The values of `enum mad_flow` that a callback hands back to the decoder. -/
inductive mad_flow where
  | CONTINUE
  | STOP
  | BREAK
  | IGNORE
deriving DecidableEq

/-- The header callback `decode_header(data, header)`: the flow value returned and the
`struct player` afterwards; `duration` is `header->duration`. -/
def decode_header (player : Player) (duration : mad_timer_t) : mad_flow × Player :=
  if player.options &&& PLAYER_OPTION_TIMED ≠ 0 ∧
      mad_timer_compare player.playback_time player.duration > 0 then
    (mad_flow.STOP, player)
  else
    let player := { player with absolute_time := mad_timer_add player.absolute_time duration }
    if player.options &&& PLAYER_OPTION_SKIP ≠ 0 ∧
        mad_timer_compare player.absolute_time player.start_time < 0 then
      (mad_flow.IGNORE, player)
    else
      (mad_flow.CONTINUE,
        { player with playback_time := mad_timer_add player.playback_time duration })

/-- Modelled from the spec: the constant `MAD_F_FRACBITS` of `mad.h`: a
fixed-point sample has 28 fractional bits. -/
def MAD_F_FRACBITS : Nat := 28

/-- Modelled from the spec: the constant `MAD_F_ONE` of `mad.h`, the sample
value 1.0, `0x10000000`. -/
def MAD_F_ONE : Int := 0x10000000

/-- The function `scale(sample)` on a `mad_fixed_t`, a 32 bit `int`: the sum with the
`long` constant `1L << 12` is exact and is stored back into the 32 bit
variable; `>>` on a negative value is the arithmetic shift. -/
def scale (sample : Int) : Int :=
  let sample := wrapInt (sample + 2 ^ (MAD_F_FRACBITS - 16))
  let sample :=
    if sample ≥ MAD_F_ONE then MAD_F_ONE - 1
    else if sample < -MAD_F_ONE then -MAD_F_ONE
    else sample
  sample >>> (MAD_F_FRACBITS + 1 - 16)

/-- The range of a 32 bit `int`, the type `mad_fixed_t`. -/
def isInt32 (x : Int) : Prop := -2 ^ 31 ≤ x ∧ x ≤ 2 ^ 31 - 1

/-- The quantisation in the words of the specification: round to nearest by
`floor((s + 2^12) / 2^13)`, then clip to the 16 bit range. -/
def quantise16 (s : Int) : Int :=
  max (-32768) (min 32767 (Int.fdiv (s + 2 ^ 12) (2 ^ 13)))

/-! ## The grammar of time specifications

The grammar of the specification:
`expr := term (('+'|'-') term)*`, `term := [sign] (colon_form | frac_form |
decimal_form)`. A decimal form is a colon form with a single component. -/

/-- A number as it is written: a run of decimal digits. -/
abbrev Num := List Char

/-- The value of a run of decimal digits. -/
def numVal (n : Num) : Nat := n.foldl (fun a c => a * 10 + digitVal c) 0

/-- A well-formed number: a non-empty run of digits whose value fits `long`. -/
def numOk (n : Num) : Bool := !n.isEmpty && n.all isdigit && decide (numVal n < 2 ^ 63)

/-- The unsigned part of a term. -/
inductive Body where
  /-- colon form `first:more₁:more₂….frac`, or decimal form when `more` is empty -/
  | colon (first : Num) (more : List Num) (frac : Option Num)
  /-- fraction form `n/m` -/
  | ratio (n m : Num)

/-- An optional sign. -/
inductive Sign where
  | none
  | plus
  | minus
deriving DecidableEq

/-- A term: optional sign and body. -/
structure Term where
  sign : Sign
  body : Body

/-- An expression: a term followed by operator-term pairs; the operator is
`true` for `-`. -/
structure Expr where
  head : Term
  tail : List (Bool × Term)

def Sign.render : Sign → List Char
  | Sign.none => []
  | Sign.plus => ['+']
  | Sign.minus => ['-']

def renderMore : List Num → List Char
  | [] => []
  | n :: ns => ':' :: (n ++ renderMore ns)

def renderFrac : Option Num → List Char
  | Option.none => []
  | some d => '.' :: d

def Body.render : Body → List Char
  | Body.colon first more frac => first ++ (renderMore more ++ renderFrac frac)
  | Body.ratio n m => n ++ '/' :: m

def Term.render (t : Term) : List Char := t.sign.render ++ t.body.render

def opChar (minus : Bool) : Char := if minus then '-' else '+'

def renderTail : List (Bool × Term) → List Char
  | [] => []
  | x :: xs => opChar x.1 :: (x.2.render ++ renderTail xs)

/-- The string of an expression. -/
def Expr.render (e : Expr) : List Char := e.head.render ++ renderTail e.tail

/-- Seconds of a colon form: every colon multiplies what was read by 60. -/
def colonSeconds : Nat → List Num → Nat
  | acc, [] => acc
  | acc, n :: ns => colonSeconds (acc * 60 + numVal n) ns

/-- Value of the digits after the decimal point: `d / 10^k` for `k` digits. -/
def fracVal : Option Num → ℚ
  | Option.none => 0
  | some d => (numVal d : ℚ) / (10 ^ d.length : ℚ)

/-- The value in seconds that the grammar gives to a body. -/
def Body.value : Body → ℚ
  | Body.colon first more frac => (colonSeconds (numVal first) more : ℚ) + fracVal frac
  | Body.ratio n m => (numVal n : ℚ) / (numVal m : ℚ)

def Sign.apply : Sign → ℚ → ℚ
  | Sign.minus, v => -v
  | _, v => v

/-- The value of a term: a leading `-` negates. -/
def Term.value (t : Term) : ℚ := t.sign.apply t.body.value

def tailValue : List (Bool × Term) → ℚ
  | [] => 0
  | x :: xs => (if x.1 then -x.2.value else x.2.value) + tailValue xs

/-- The value of an expression: terms joined by `+` are added, by `-`
subtracted. -/
def Expr.value (e : Expr) : ℚ := e.head.value + tailValue e.tail

def fracOk : Option Num → Bool
  | Option.none => true
  | some d => numOk d && decide (d.length ≤ 19)

/-- A body whose numbers are well formed and stay in the machine ranges: every
number fits `long`, the seconds of a colon form fit `unsigned long`, there are
at most 19 digits after the point, and a denominator is positive. -/
def Body.ok : Body → Bool
  | Body.colon first more frac =>
    numOk first && more.all numOk && decide (colonSeconds (numVal first) more < 2 ^ 64) &&
      fracOk frac
  | Body.ratio n m => numOk n && numOk m && decide (0 < numVal m)

/-- The expressions the claims are proved for: bodies in range, and a term
that follows an operator has no `-` sign of its own. -/
def Expr.ok (e : Expr) : Bool :=
  e.head.body.ok && e.tail.all (fun x => x.2.body.ok && decide (x.2.sign ≠ Sign.minus))

/-- A body that more characters could still continue: a colon or decimal form
without digits after a point. -/
def Body.isOpen : Body → Bool
  | Body.colon _ _ Option.none => true
  | _ => false

/-- The characters at which `parse_mad_time` ends a term with body `b`: not a
digit, and after an open body none of `:`, `.`, `/`. -/
def madStop (b : Body) (c : Char) : Bool :=
  !isdigit c && (!b.isOpen || (decide (c ≠ ':') && decide (c ≠ '.') && decide (c ≠ '/')))

/-- The body of the last term of `b₀ tail`. -/
def lastBody (b : Body) : List (Bool × Term) → Body
  | [] => b
  | x :: xs => lastBody x.2.body xs

/-- The pointer `r` is `s` itself or points to a shorter rest. -/
def Advanced (r s : List Char) : Prop := r = s ∨ r.length < s.length

/-- What a step of the packet loops keeps: on the way to the next packet the
position of the stream and the file are as before. -/
def Flow.Keeps (st : SpeexState) (w : World) : Flow → Prop
  | Flow.next st' w' => st'.pos = st.pos ∧ w'.file = w.file
  | Flow.ret _ _ => True
  | Flow.close _ _ => True

/-- Libraries that find no Ogg page in the input: no packet ever comes out. -/
def no_ogg : SpeexLib where
  fdopen_ok := true
  packets := fun _ => []
  SPEEX_NB_MODES := 3
  bitstream_version := fun _ => 4
  decoder_init_ok := true
  frame_size := 160

/-- System calls that succeed and an MPEG decoder run that ends without
error. -/
def plain_mpeg : MpegLib where
  fstat_ok := true
  mmap_ok := true
  munmap_ok := true
  mad_decoder_run := fun _ w => (0, w)

/-- An environment in which every system call of `main` succeeds and no
library recognises the input. -/
def plain_env : Env ℚ where
  ops := ieee_double
  speex := no_ogg
  mpeg := plain_mpeg
  open_ok := true
  save_sigtstp_ok := true
  save_sigint_ok := true
  set_first_ok := true
  set_second_ok := true

/-! ## Unfolding lemmas for the loops -/

theorem colon_loop_succ (fuel seconds : Nat) (str : List Char) :
    colon_loop (fuel + 1) seconds str =
      if (strtol str).1 < 0 then Scan.bad
      else
        if isdigit (peek (if peek (strtol str).2 = ':' then (strtol str).2.tail
            else (strtol str).2)) then
          colon_loop fuel
            (if peek (strtol str).2 = ':' then
              ((seconds + (strtol str).1.toNat) % ULONG_MOD * 60) % ULONG_MOD
            else (seconds + (strtol str).1.toNat) % ULONG_MOD)
            (if peek (strtol str).2 = ':' then (strtol str).2.tail else (strtol str).2)
        else
          Scan.done
            (if peek (strtol str).2 = ':' then
              ((seconds + (strtol str).1.toNat) % ULONG_MOD * 60) % ULONG_MOD
            else (seconds + (strtol str).1.toNat) % ULONG_MOD,
            if peek (strtol str).2 = ':' then (strtol str).2.tail else (strtol str).2) := by
  rfl

theorem mad_terms_succ (fuel : Nat) (accum : mad_timer_t) (str : List Char) :
    mad_terms (fuel + 1) accum str =
      match mad_term str with
      | Scan.starved => Scan.starved
      | Scan.bad => Scan.bad
      | Scan.done (time, str) =>
        if peek str = '-' ∨ peek str = '+' then mad_terms fuel (mad_timer_add accum time) str
        else Scan.done (mad_timer_add accum time, str) := by
  rfl

theorem double_terms_succ {D : Type} (ops : DoubleOps D) (fuel : Nat) (accum : D)
    (str : List Char) :
    double_terms ops (fuel + 1) accum str =
      match double_term ops str with
      | Scan.starved => Scan.starved
      | Scan.bad => Scan.bad
      | Scan.done (time, str) =>
        if peek str = '-' ∨ peek str = '+' then double_terms ops fuel (ops.add accum time) str
        else Scan.done (ops.add accum time, str) := by
  rfl

/-! ## Evaluation lemmas at the end of the string -/

theorem strtol_nil : strtol [] = (0, []) := by decide!

theorem colon_loop_nil (fuel : Nat) : colon_loop (fuel + 1) 0 [] = Scan.done (0, []) := by
  have h1 : ¬ ((0 : Int) < 0) := by decide
  have h2 : isdigit (peek []) = false := by decide
  have h3 : ¬ (peek [] = ':') := by decide
  rw [colon_loop_succ, strtol_nil]
  simp only [h1, h2, h3, if_false, Int.toNat_zero, Nat.add_zero, Nat.zero_mod,
    Bool.false_eq_true]

theorem mad_tail_nil (seconds : Nat) : mad_tail seconds [] = Scan.done (seconds, 0, 0, []) := by
  have h1 : ¬ (peek [] = '.') := by decide
  have h2 : ¬ (peek [] = '/') := by decide
  simp only [mad_tail, h1, h2, if_false]

theorem double_tail_nil : double_tail [] = Scan.done (0, 0, []) := by decide!

theorem sign_switch_nil : sign_switch [] = (false, []) := by decide!

/-! ## Characters -/

theorem peek_cons (c : Char) (s : List Char) : peek (c :: s) = c := rfl

theorem digit_ne {c d : Char} (hc : isdigit c = true) (hd : isdigit d = false) : c ≠ d := by
  intro h
  rw [h, hd] at hc
  exact Bool.false_ne_true hc

theorem digit_not_space {c : Char} (hc : isdigit c = true) : isspace c = false := by
  unfold isdigit at hc
  unfold isspace
  simp only [Bool.and_eq_true, decide_eq_true_eq] at hc
  simp only [Bool.or_eq_false_iff, Bool.and_eq_false_iff, decide_eq_false_iff_not]
  omega

theorem skipSpace_cons {c : Char} (s : List Char) (hc : isspace c = false) :
    skipSpace (c :: s) = c :: s := by
  rw [skipSpace, hc]
  rfl

/-! ## `strtol` on a run of digits -/

theorem scanDigits_append (ds : List Char) (acc : Nat) (rest : List Char)
    (hds : ds.all isdigit = true) (hrest : isdigit (peek rest) = false) :
    scanDigits acc (ds ++ rest) = (ds.foldl (fun a c => a * 10 + digitVal c) acc, rest) := by
  induction ds generalizing acc with
  | nil =>
    cases rest with
    | nil => rfl
    | cons c cs =>
      rw [peek_cons] at hrest
      rw [List.nil_append, scanDigits, hrest]
      rfl
  | cons d ds ih =>
    rw [List.all_cons, Bool.and_eq_true] at hds
    rw [List.cons_append, scanDigits, hds.1, if_pos rfl, ih _ hds.2, List.foldl_cons]

theorem strtol_digits (n : Num) (rest : List Char) (hn : numOk n = true)
    (hrest : isdigit (peek rest) = false) :
    strtol (n ++ rest) = ((numVal n : Int), rest) := by
  unfold numOk at hn
  simp only [Bool.and_eq_true, Bool.not_eq_true', decide_eq_true_eq] at hn
  obtain ⟨⟨hne, hall⟩, hlt⟩ := hn
  cases n with
  | nil => simp at hne
  | cons d ds =>
    have hd : isdigit d = true := by
      rw [List.all_cons, Bool.and_eq_true] at hall
      exact hall.1
    have h1 : ¬ (d = '-' ∨ d = '+') := by
      intro h
      rcases h with h | h
      · exact digit_ne hd (by decide) h
      · exact digit_ne hd (by decide) h
    have h2 : ¬ (d = '-') := fun h => h1 (Or.inl h)
    unfold strtol
    rw [List.cons_append, skipSpace_cons _ (digit_not_space hd)]
    simp only [peek_cons]
    rw [if_neg h1, if_neg h2]
    simp only [peek_cons, hd, if_true]
    rw [← List.cons_append, scanDigits_append _ _ _ hall hrest]
    have : min LONG_MAX (numVal (d :: ds) : Int) = (numVal (d :: ds) : Int) := by
      apply min_eq_right
      unfold LONG_MAX
      have : ((numVal (d :: ds) : Nat) : Int) < 2 ^ 63 := by exact_mod_cast hlt
      omega
    simp only [numVal] at this ⊢
    rw [this]

theorem strtol_plus_digits (n : Num) (rest : List Char) (hn : numOk n = true)
    (hrest : isdigit (peek rest) = false) :
    strtol ('+' :: (n ++ rest)) = ((numVal n : Int), rest) := by
  have hn' := hn
  unfold numOk at hn
  simp only [Bool.and_eq_true, Bool.not_eq_true', decide_eq_true_eq] at hn
  obtain ⟨⟨hne, hall⟩, hlt⟩ := hn
  cases n with
  | nil => simp at hne
  | cons d ds =>
    have hd : isdigit d = true := by
      rw [List.all_cons, Bool.and_eq_true] at hall
      exact hall.1
    have h1 : ('+' = '-' ∨ True) := Or.inr trivial
    have h2 : ¬ ('+' = '-') := by decide
    unfold strtol
    rw [skipSpace_cons _ (by decide)]
    simp only [peek_cons]
    rw [if_pos h1, if_neg h2]
    simp only [List.tail_cons, List.cons_append, peek_cons, hd, if_true]
    rw [← List.cons_append, scanDigits_append _ _ _ hall hrest]
    have : min LONG_MAX (numVal (d :: ds) : Int) = (numVal (d :: ds) : Int) := by
      apply min_eq_right
      unfold LONG_MAX
      have : ((numVal (d :: ds) : Nat) : Int) < 2 ^ 63 := by exact_mod_cast hlt
      omega
    simp only [numVal] at this ⊢
    rw [this]

/-! ## The fuel suffices: the parsers always return -/

theorem Advanced.refl (s : List Char) : Advanced s s := Or.inl rfl

theorem Advanced.le {r s : List Char} (h : Advanced r s) : r.length ≤ s.length := by
  rcases h with h | h
  · rw [h]
  · omega

theorem Advanced.trans {r s t : List Char} (h1 : Advanced r s) (h2 : Advanced s t) :
    Advanced r t := by
  rcases h1 with h1 | h1
  · rw [h1]
    exact h2
  · exact Or.inr (Nat.lt_of_lt_of_le h1 h2.le)

theorem tail_shorter {s : List Char} (h : peek s ≠ Char.ofNat 0) :
    s.tail.length < s.length := by
  cases s with
  | nil => exact absurd rfl h
  | cons c cs => simp

theorem skipSpace_length (s : List Char) : (skipSpace s).length ≤ s.length := by
  induction s with
  | nil => exact Nat.le_refl _
  | cons c cs ih =>
    rw [skipSpace]
    split
    · simp only [List.length_cons]
      omega
    · exact Nat.le_refl _

theorem scanDigits_length (s : List Char) (acc : Nat) :
    (scanDigits acc s).2.length ≤ s.length := by
  induction s generalizing acc with
  | nil => exact Nat.le_refl _
  | cons c cs ih =>
    rw [scanDigits]
    split
    · have := ih (acc * 10 + digitVal c)
      simp only [List.length_cons]
      omega
    · exact Nat.le_refl _

theorem scanDigits_shorter (s : List Char) (acc : Nat) (h : isdigit (peek s) = true) :
    (scanDigits acc s).2.length < s.length := by
  cases s with
  | nil => exact absurd h (by decide)
  | cons c cs =>
    rw [peek_cons] at h
    rw [scanDigits, if_pos h]
    have := scanDigits_length cs (acc * 10 + digitVal c)
    simp only [List.length_cons]
    omega

theorem strtol_advanced (s : List Char) : Advanced (strtol s).2 s := by
  have h3 : (if peek (skipSpace s) = '-' ∨ peek (skipSpace s) = '+' then (skipSpace s).tail
      else skipSpace s).length ≤ (skipSpace s).length := by
    by_cases hc : peek (skipSpace s) = '-' ∨ peek (skipSpace s) = '+'
    · rw [if_pos hc, List.length_tail]
      omega
    · rw [if_neg hc]
  have h2 := skipSpace_length s
  unfold strtol
  dsimp only
  by_cases hd : isdigit (peek (if peek (skipSpace s) = '-' ∨ peek (skipSpace s) = '+' then
      (skipSpace s).tail else skipSpace s)) = true
  · rw [if_pos hd]
    right
    have h1 := scanDigits_shorter _ 0 hd
    dsimp only
    omega
  · rw [if_neg hd]
    exact Advanced.refl s

theorem strtol_shorter (s : List Char) (h : isdigit (peek s) = true) :
    (strtol s).2.length < s.length := by
  cases s with
  | nil => exact absurd h (by decide)
  | cons c cs =>
    rw [peek_cons] at h
    have h1 : ¬ (c = '-' ∨ c = '+') := by
      intro hc
      rcases hc with hc | hc
      · exact digit_ne h (by decide) hc
      · exact digit_ne h (by decide) hc
    unfold strtol
    rw [skipSpace_cons _ (digit_not_space h)]
    simp only [peek_cons]
    rw [if_neg h1]
    simp only [peek_cons, h, if_true]
    exact scanDigits_shorter (c :: cs) 0 h

/-- With more fuel than characters the colon loop does not starve, and it
leaves the pointer where it was or further on. -/
theorem colon_loop_total (fuel : Nat) :
    ∀ (seconds : Nat) (str : List Char), str.length < fuel →
      colon_loop fuel seconds str = Scan.bad ∨
        ∃ v r, colon_loop fuel seconds str = Scan.done (v, r) ∧ Advanced r str := by
  induction fuel with
  | zero =>
    intro seconds str h
    omega
  | succ f ih =>
    intro seconds str hlen
    have hadv := strtol_advanced str
    rw [colon_loop_succ]
    by_cases hneg : (strtol str).1 < 0
    · rw [if_pos hneg]
      exact Or.inl rfl
    · rw [if_neg hneg]
      by_cases hc : peek (strtol str).2 = ':'
      · have hne : peek (strtol str).2 ≠ Char.ofNat 0 := by
          rw [hc]
          decide
        have hlt : (strtol str).2.tail.length < str.length :=
          Nat.lt_of_lt_of_le (tail_shorter hne) hadv.le
        simp only [if_pos hc]
        by_cases hdig : isdigit (peek (strtol str).2.tail) = true
        · rw [if_pos hdig]
          rcases ih _ _ (show (strtol str).2.tail.length < f by omega) with hb | ⟨v, r, hv, hr⟩
          · exact Or.inl hb
          · exact Or.inr ⟨v, r, hv, hr.trans (Or.inr hlt)⟩
        · rw [if_neg hdig]
          exact Or.inr ⟨_, _, rfl, Or.inr hlt⟩
      · simp only [if_neg hc]
        by_cases hdig : isdigit (peek (strtol str).2) = true
        · rw [if_pos hdig]
          have hlt : (strtol str).2.length < str.length := by
            rcases hadv with he | hl
            · rw [he] at hdig
              exact strtol_shorter str hdig
            · exact hl
          rcases ih _ _ (show (strtol str).2.length < f by omega) with hb | ⟨v, r, hv, hr⟩
          · exact Or.inl hb
          · exact Or.inr ⟨v, r, hv, hr.trans (Or.inr hlt)⟩
        · rw [if_neg hdig]
          exact Or.inr ⟨_, _, rfl, hadv⟩

theorem sign_switch_advanced (str : List Char) : Advanced (sign_switch str).2 str := by
  unfold sign_switch
  by_cases h1 : peek str = '-'
  · rw [if_pos h1]
    exact Or.inr (tail_shorter (by rw [h1]; decide))
  · rw [if_neg h1]
    by_cases h2 : peek str = '+'
    · rw [if_pos h2]
      exact Or.inr (tail_shorter (by rw [h2]; decide))
    · rw [if_neg h2]
      exact Advanced.refl str

theorem sign_switch_shorter (str : List Char) (h : peek str = '-' ∨ peek str = '+') :
    (sign_switch str).2.length < str.length := by
  unfold sign_switch
  by_cases h1 : peek str = '-'
  · rw [if_pos h1]
    exact tail_shorter (by rw [h1]; decide)
  · rw [if_neg h1]
    have h2 : peek str = '+' := h.resolve_left h1
    rw [if_pos h2]
    exact tail_shorter (by rw [h2]; decide)

theorem mad_tail_total (seconds : Nat) (str : List Char) :
    mad_tail seconds str = Scan.bad ∨
      ∃ a r, mad_tail seconds str = Scan.done (a, r) ∧ Advanced r.2.2 str := by
  unfold mad_tail
  by_cases h1 : peek str = '.'
  · have hlt := tail_shorter (s := str) (by rw [h1]; decide)
    rw [if_pos h1]
    dsimp only
    by_cases hn : (strtol str.tail).1 < 0
    · rw [if_pos hn]
      exact Or.inl rfl
    · rw [if_neg hn]
      exact Or.inr ⟨_, _, rfl, Or.inr (Nat.lt_of_le_of_lt (strtol_advanced _).le hlt)⟩
  · rw [if_neg h1]
    by_cases h2 : peek str = '/'
    · have hlt := tail_shorter (s := str) (by rw [h2]; decide)
      rw [if_pos h2]
      dsimp only
      by_cases hn : (strtol str.tail).1 < 0
      · rw [if_pos hn]
        exact Or.inl rfl
      · rw [if_neg hn]
        exact Or.inr ⟨_, _, rfl, Or.inr (Nat.lt_of_le_of_lt (strtol_advanced _).le hlt)⟩
    · rw [if_neg h2]
      exact Or.inr ⟨_, _, rfl, Advanced.refl str⟩

theorem double_tail_total (str : List Char) :
    double_tail str = Scan.bad ∨
      ∃ a r, double_tail str = Scan.done (a, r) ∧ Advanced r.2 str := by
  unfold double_tail
  by_cases h1 : peek str = '.'
  · have hlt := tail_shorter (s := str) (by rw [h1]; decide)
    rw [if_pos h1]
    dsimp only
    by_cases hn : (strtol str.tail).1 < 0
    · rw [if_pos hn]
      exact Or.inl rfl
    · rw [if_neg hn]
      exact Or.inr ⟨_, _, rfl, Or.inr (Nat.lt_of_le_of_lt (strtol_advanced _).le hlt)⟩
  · rw [if_neg h1]
    exact Or.inr ⟨_, _, rfl, Advanced.refl str⟩

theorem mad_term_total (str : List Char) :
    mad_term str = Scan.bad ∨
      ∃ t r, mad_term str = Scan.done (t, r) ∧ Advanced r (sign_switch str).2 := by
  unfold mad_term
  dsimp only
  rcases colon_loop_total ((sign_switch str).2.length + 1) 0 (sign_switch str).2
    (Nat.lt_succ_self _) with hb | ⟨v, r, hv, hr⟩
  · rw [hb]
    exact Or.inl rfl
  · rw [hv]
    dsimp only
    rcases mad_tail_total v r with hb | ⟨a, q, ha, hq⟩
    · rw [hb]
      exact Or.inl rfl
    · rw [ha]
      exact Or.inr ⟨_, _, rfl, hq.trans hr⟩

theorem double_term_total {D : Type} (ops : DoubleOps D) (str : List Char) :
    double_term ops str = Scan.bad ∨
      ∃ t r, double_term ops str = Scan.done (t, r) ∧ Advanced r (sign_switch str).2 := by
  unfold double_term
  dsimp only
  rcases colon_loop_total ((sign_switch str).2.length + 1) 0 (sign_switch str).2
    (Nat.lt_succ_self _) with hb | ⟨v, r, hv, hr⟩
  · rw [hb]
    exact Or.inl rfl
  · rw [hv]
    dsimp only
    rcases double_tail_total r with hb | ⟨a, q, ha, hq⟩
    · rw [hb]
      exact Or.inl rfl
    · rw [ha]
      exact Or.inr ⟨_, _, rfl, hq.trans hr⟩

theorem next_term_shorter {r str : List Char} (hr : Advanced r (sign_switch str).2)
    (hpm : peek r = '-' ∨ peek r = '+') : r.length < str.length := by
  rcases hr.trans (sign_switch_advanced str) with he | hl
  · rw [he] at hpm
    have h1 := sign_switch_shorter str hpm
    have h2 := hr.le
    rw [he] at h2
    omega
  · exact hl

theorem mad_terms_total (fuel : Nat) :
    ∀ (accum : mad_timer_t) (str : List Char), str.length < fuel →
      mad_terms fuel accum str = Scan.bad ∨ ∃ a r, mad_terms fuel accum str = Scan.done (a, r) := by
  induction fuel with
  | zero =>
    intro accum str h
    omega
  | succ f ih =>
    intro accum str hlen
    rw [mad_terms_succ]
    rcases mad_term_total str with hb | ⟨t, r, ht, hr⟩
    · rw [hb]
      exact Or.inl rfl
    · rw [ht]
      dsimp only
      by_cases hpm : peek r = '-' ∨ peek r = '+'
      · rw [if_pos hpm]
        have := next_term_shorter hr hpm
        exact ih _ _ (by omega)
      · rw [if_neg hpm]
        exact Or.inr ⟨_, _, rfl⟩

theorem double_terms_total {D : Type} (ops : DoubleOps D) (fuel : Nat) :
    ∀ (accum : D) (str : List Char), str.length < fuel →
      double_terms ops fuel accum str = Scan.bad ∨
        ∃ a r, double_terms ops fuel accum str = Scan.done (a, r) := by
  induction fuel with
  | zero =>
    intro accum str h
    omega
  | succ f ih =>
    intro accum str hlen
    rw [double_terms_succ]
    rcases double_term_total ops str with hb | ⟨t, r, ht, hr⟩
    · rw [hb]
      exact Or.inl rfl
    · rw [ht]
      dsimp only
      by_cases hpm : peek r = '-' ∨ peek r = '+'
      · rw [if_pos hpm]
        have := next_term_shorter hr hpm
        exact ih _ _ (by omega)
      · rw [if_neg hpm]
        exact Or.inr ⟨_, _, rfl⟩

/-- The function `parse_mad_time` always returns: with -1 and `*timer` as it was, or with 0
and a value. -/
theorem parse_mad_time_total (timer : mad_timer_t) (str : List Char) :
    parse_mad_time timer str = some (-1, timer) ∨ ∃ v, parse_mad_time timer str = some (0, v) := by
  unfold parse_mad_time
  dsimp only
  rcases mad_terms_total ((skipSpace str).length + 1) mad_timer_zero (skipSpace str)
    (Nat.lt_succ_self _) with hb | ⟨a, r, ha⟩
  · rw [hb]
    exact Or.inl rfl
  · rw [ha]
    dsimp only
    by_cases hn : peek (skipSpace r) ≠ Char.ofNat 0
    · rw [if_pos hn]
      exact Or.inl rfl
    · rw [if_neg hn]
      exact Or.inr ⟨_, rfl⟩

/-- The function `parse_double_time` always returns: with -1 and `*timer` as it was, or
with 0 and a value. -/
theorem parse_double_time_total {D : Type} (ops : DoubleOps D) (timer : D) (str : List Char) :
    parse_double_time ops timer str = some (-1, timer) ∨
      ∃ v, parse_double_time ops timer str = some (0, v) := by
  unfold parse_double_time
  dsimp only
  rcases double_terms_total ops ((skipSpace str).length + 1) ops.zero (skipSpace str)
    (Nat.lt_succ_self _) with hb | ⟨a, r, ha⟩
  · rw [hb]
    exact Or.inl rfl
  · rw [ha]
    dsimp only
    by_cases hn : peek (skipSpace r) ≠ Char.ofNat 0
    · rw [if_pos hn]
      exact Or.inl rfl
    · rw [if_neg hn]
      exact Or.inr ⟨_, rfl⟩

/-! ## The colon loop on a colon form -/

theorem numOk_peek {n : Num} (hn : numOk n = true) (rest : List Char) :
    isdigit (peek (n ++ rest)) = true := by
  unfold numOk at hn
  simp only [Bool.and_eq_true, Bool.not_eq_true', decide_eq_true_eq] at hn
  cases n with
  | nil => simp at hn
  | cons d ds =>
    rw [List.all_cons, Bool.and_eq_true] at hn
    rw [List.cons_append, peek_cons]
    exact hn.1.2.1

theorem colon_loop_iter (fuel seconds : Nat) (str rest : List Char) (v : Nat)
    (hst : strtol str = ((v : Int), rest)) :
    colon_loop (fuel + 1) seconds str =
      if isdigit (peek (if peek rest = ':' then rest.tail else rest)) then
        colon_loop fuel
          (if peek rest = ':' then ((seconds + v) % ULONG_MOD * 60) % ULONG_MOD
            else (seconds + v) % ULONG_MOD)
          (if peek rest = ':' then rest.tail else rest)
      else
        Scan.done
          (if peek rest = ':' then ((seconds + v) % ULONG_MOD * 60) % ULONG_MOD
            else (seconds + v) % ULONG_MOD,
          if peek rest = ':' then rest.tail else rest) := by
  have h0 : ¬ ((v : Int) < 0) := by omega
  rw [colon_loop_succ, hst]
  dsimp only
  rw [if_neg h0, Int.toNat_ofNat]

theorem colon_loop_last (fuel seconds : Nat) (str rest : List Char) (v : Nat)
    (hst : strtol str = ((v : Int), rest)) (hcolon : peek rest ≠ ':')
    (hdig : isdigit (peek rest) = false) (hlt : seconds + v < 2 ^ 64) :
    colon_loop (fuel + 1) seconds str = Scan.done (seconds + v, rest) := by
  rw [colon_loop_iter fuel seconds str rest v hst, if_neg hcolon, if_neg hcolon, hdig]
  have : (seconds + v) % ULONG_MOD = seconds + v := Nat.mod_eq_of_lt hlt
  rw [this]
  rfl

theorem colon_loop_colon (fuel seconds : Nat) (str r : List Char) (v : Nat)
    (hst : strtol str = ((v : Int), ':' :: r)) (hdig : isdigit (peek r) = true)
    (hlt : (seconds + v) * 60 < 2 ^ 64) :
    colon_loop (fuel + 1) seconds str = colon_loop fuel ((seconds + v) * 60) r := by
  have hc : peek (':' :: r) = ':' := rfl
  rw [colon_loop_iter fuel seconds str (':' :: r) v hst, if_pos hc, if_pos hc, List.tail_cons,
    hdig, if_pos rfl]
  have h1 : (seconds + v) % ULONG_MOD = seconds + v :=
    Nat.mod_eq_of_lt (show seconds + v < 2 ^ 64 by omega)
  have h2 : ((seconds + v) * 60) % ULONG_MOD = (seconds + v) * 60 := Nat.mod_eq_of_lt hlt
  rw [h1, h2]

theorem colon_loop_colon_end (fuel seconds : Nat) (str r : List Char) (v : Nat)
    (hst : strtol str = ((v : Int), ':' :: r)) (hdig : isdigit (peek r) = false)
    (hlt : (seconds + v) * 60 < 2 ^ 64) :
    colon_loop (fuel + 1) seconds str = Scan.done ((seconds + v) * 60, r) := by
  have hc : peek (':' :: r) = ':' := rfl
  rw [colon_loop_iter fuel seconds str (':' :: r) v hst, if_pos hc, if_pos hc, List.tail_cons,
    hdig]
  have h1 : (seconds + v) % ULONG_MOD = seconds + v :=
    Nat.mod_eq_of_lt (show seconds + v < 2 ^ 64 by omega)
  have h2 : ((seconds + v) * 60) % ULONG_MOD = (seconds + v) * 60 := Nat.mod_eq_of_lt hlt
  rw [h1, h2]
  rfl

theorem colonSeconds_ge (more : List Num) (acc : Nat) : acc ≤ colonSeconds acc more := by
  induction more generalizing acc with
  | nil => exact Nat.le_refl _
  | cons n ns ih =>
    rw [colonSeconds]
    have := ih (acc * 60 + numVal n)
    omega

theorem renderMore_length (more : List Num) : more.length ≤ (renderMore more).length := by
  induction more with
  | nil => exact Nat.le_refl _
  | cons n ns ih =>
    rw [renderMore, List.length_cons, List.length_cons, List.length_append]
    omega

/-- The colon loop reads `n:more₁:more₂…` up to a character that is neither a
digit nor a colon, whatever sign-free prefix `strtol` accepted before `n`. -/
theorem colon_loop_more (more : List Num) (fuel seconds : Nat) (str : List Char) (n : Num)
    (rest : List Char) (hfuel : more.length < fuel) (hmore : more.all numOk = true)
    (hst : ∀ r, isdigit (peek r) = false → strtol (str ++ r) = ((numVal n : Int), r))
    (hcolon : peek rest ≠ ':') (hdig : isdigit (peek rest) = false)
    (hlt : colonSeconds (seconds + numVal n) more < 2 ^ 64) :
    colon_loop fuel seconds (str ++ (renderMore more ++ rest)) =
      Scan.done (colonSeconds (seconds + numVal n) more, rest) := by
  induction more generalizing fuel seconds str n with
  | nil =>
    obtain ⟨f, rfl⟩ : ∃ f, fuel = f + 1 := ⟨fuel - 1, by omega⟩
    rw [renderMore, List.nil_append]
    exact colon_loop_last f seconds _ rest _ (hst rest hdig) hcolon hdig hlt
  | cons m ms ih =>
    obtain ⟨f, rfl⟩ : ∃ f, fuel = f + 1 := ⟨fuel - 1, by omega⟩
    rw [List.all_cons, Bool.and_eq_true] at hmore
    rw [colonSeconds] at hlt
    have hge := colonSeconds_ge ms ((seconds + numVal n) * 60 + numVal m)
    rw [renderMore, List.cons_append, List.append_assoc]
    have hcd : isdigit ':' = false := by decide
    have hst1 := hst (':' :: (m ++ (renderMore ms ++ rest))) hcd
    rw [colon_loop_colon f seconds _ _ _ hst1 (numOk_peek hmore.1 _) (by omega)]
    rw [colonSeconds]
    apply ih f _ m m
    · simp only [List.length_cons] at hfuel
      omega
    · exact hmore.2
    · intro r hr
      exact strtol_digits m r hmore.1 hr
    · exact hlt

/-! ## The branches after the colon loop -/

theorem fracpart_loop_eq (k : Nat) (hk : k ≤ 19) : fracpart_loop k = 10 ^ k := by
  induction k with
  | zero => rfl
  | succ k ih =>
    rw [fracpart_loop, ih (by omega), ← Nat.pow_succ]
    apply Nat.mod_eq_of_lt
    have h1 : 10 ^ (k + 1) ≤ 10 ^ 19 := Nat.pow_le_pow_right (by decide) hk
    have h2 : 10 ^ 19 < ULONG_MOD := by decide
    omega

theorem mad_tail_none (seconds : Nat) (str : List Char) (h1 : peek str ≠ '.')
    (h2 : peek str ≠ '/') : mad_tail seconds str = Scan.done (seconds, 0, 0, str) := by
  unfold mad_tail
  rw [if_neg h1, if_neg h2]

theorem mad_tail_frac (seconds : Nat) (d : Num) (rest : List Char) (hd : numOk d = true)
    (hlen : d.length ≤ 19) (hrest : isdigit (peek rest) = false) :
    mad_tail seconds ('.' :: (d ++ rest)) = Scan.done (seconds, numVal d, 10 ^ d.length, rest) := by
  have h0 : ¬ ((numVal d : Int) < 0) := by omega
  unfold mad_tail
  rw [peek_cons, if_pos rfl, List.tail_cons, strtol_digits d rest hd hrest]
  dsimp only
  rw [if_neg h0, Int.toNat_ofNat, List.length_append, Nat.add_sub_cancel,
    fracpart_loop_eq _ hlen]

theorem mad_tail_ratio (seconds : Nat) (m : Num) (rest : List Char) (hm : numOk m = true)
    (hrest : isdigit (peek rest) = false) :
    mad_tail seconds ('/' :: (m ++ rest)) = Scan.done (0, seconds, numVal m, rest) := by
  have h0 : ¬ ((numVal m : Int) < 0) := by omega
  have h1 : ¬ ('/' = '.') := by decide
  unfold mad_tail
  rw [peek_cons, if_neg h1, if_pos rfl, List.tail_cons, strtol_digits m rest hm hrest]
  dsimp only
  rw [if_neg h0, Int.toNat_ofNat]

theorem double_tail_none (str : List Char) (h1 : peek str ≠ '.') :
    double_tail str = Scan.done (0, 0, str) := by
  unfold double_tail
  rw [if_neg h1]

theorem double_tail_frac (d : Num) (rest : List Char) (hd : numOk d = true)
    (hlen : d.length ≤ 19) (hrest : isdigit (peek rest) = false) :
    double_tail ('.' :: (d ++ rest)) = Scan.done (numVal d, 10 ^ d.length, rest) := by
  have h0 : ¬ ((numVal d : Int) < 0) := by omega
  unfold double_tail
  rw [peek_cons, if_pos rfl, List.tail_cons, strtol_digits d rest hd hrest]
  dsimp only
  rw [if_neg h0, Int.toNat_ofNat, List.length_append, Nat.add_sub_cancel,
    fracpart_loop_eq _ hlen]

/-! ## One term -/

theorem strtol_pre (pre : List Char) (hpre : pre = [] ∨ pre = ['+']) (n : Num)
    (hn : numOk n = true) (r : List Char) (hr : isdigit (peek r) = false) :
    strtol ((pre ++ n) ++ r) = ((numVal n : Int), r) := by
  rcases hpre with h | h
  · rw [h, List.nil_append]
    exact strtol_digits n r hn hr
  · rw [h, List.singleton_append, List.cons_append]
    exact strtol_plus_digits n r hn hr

theorem madStop_digit {b : Body} {c : Char} (h : madStop b c = true) : isdigit c = false := by
  unfold madStop at h
  simp only [Bool.and_eq_true, Bool.not_eq_true'] at h
  exact h.1

theorem madStop_open {b : Body} {c : Char} (h : madStop b c = true) (ho : b.isOpen = true) :
    c ≠ ':' ∧ c ≠ '.' ∧ c ≠ '/' := by
  unfold madStop at h
  simp only [Bool.and_eq_true, Bool.not_eq_true', Bool.or_eq_true, decide_eq_true_eq, ho] at h
  rcases h.2 with h2 | h2
  · exact absurd h2 (by simp)
  · exact ⟨h2.1.1, h2.1.2, h2.2⟩

theorem mad_term_of_switch (str : List Char) (m : Bool) (s : List Char)
    (hsw : sign_switch str = (m, s)) :
    mad_term str =
      match colon_loop (s.length + 1) 0 s with
      | Scan.starved => Scan.starved
      | Scan.bad => Scan.bad
      | Scan.done (seconds, str) =>
        match mad_tail seconds str with
        | Scan.starved => Scan.starved
        | Scan.bad => Scan.bad
        | Scan.done (seconds, fraction, fracpart, str) =>
          Scan.done (if m then mad_timer_negate (mad_timer_set seconds fraction fracpart)
            else mad_timer_set seconds fraction fracpart, str) := by
  unfold mad_term
  rw [hsw]

theorem double_term_of_switch {D : Type} (ops : DoubleOps D) (str : List Char) (m : Bool)
    (s : List Char) (hsw : sign_switch str = (m, s)) :
    double_term ops str =
      match colon_loop (s.length + 1) 0 s with
      | Scan.starved => Scan.starved
      | Scan.bad => Scan.bad
      | Scan.done (seconds, str) =>
        match double_tail str with
        | Scan.starved => Scan.starved
        | Scan.bad => Scan.bad
        | Scan.done (fraction, fracpart, str) =>
          Scan.done (if m then ops.neg (if fraction ≠ 0 then
              ops.add (ops.ofULong seconds) (ops.div (ops.ofULong fraction) (ops.ofULong fracpart))
              else ops.ofULong seconds)
            else (if fraction ≠ 0 then
              ops.add (ops.ofULong seconds) (ops.div (ops.ofULong fraction) (ops.ofULong fracpart))
              else ops.ofULong seconds), str) := by
  unfold double_term
  rw [hsw]

/-- The colon loop of a term on `pre body rest`: it stops in front of the
fraction digits, of the `/`, or of `rest`. -/
theorem colon_loop_body (pre : List Char) (hpre : pre = [] ∨ pre = ['+']) (first : Num)
    (more : List Num) (tl : List Char) (fuel : Nat) (hfuel : more.length < fuel)
    (hfirst : numOk first = true) (hmore : more.all numOk = true)
    (hlt : colonSeconds (numVal first) more < 2 ^ 64)
    (hcolon : peek tl ≠ ':') (hdig : isdigit (peek tl) = false) :
    colon_loop fuel 0 ((pre ++ first) ++ (renderMore more ++ tl)) =
      Scan.done (colonSeconds (numVal first) more, tl) := by
  have h := colon_loop_more more fuel 0 (pre ++ first) first tl hfuel hmore
    (fun r hr => strtol_pre pre hpre first hfirst r hr) hcolon hdig
    (by rw [Nat.zero_add]; exact hlt)
  rw [Nat.zero_add] at h
  exact h

theorem mad_term_spec (str : List Char) (m : Bool) (pre : List Char) (b : Body)
    (rest : List Char) (hsw : sign_switch str = (m, pre ++ (b.render ++ rest)))
    (hpre : pre = [] ∨ pre = ['+']) (hb : b.ok = true) (hstop : madStop b (peek rest) = true) :
    mad_term str = Scan.done (if m then -b.value else b.value, rest) := by
  rw [mad_term_of_switch str m _ hsw]
  have hrd := madStop_digit hstop
  cases b with
  | colon first more frac =>
    unfold Body.ok at hb
    simp only [Bool.and_eq_true, decide_eq_true_eq] at hb
    obtain ⟨⟨⟨hfirst, hmore⟩, hlt⟩, hfrac⟩ := hb
    have hshape : pre ++ ((Body.colon first more frac).render ++ rest) =
        (pre ++ first) ++ (renderMore more ++ (renderFrac frac ++ rest)) := by
      simp only [Body.render, List.append_assoc]
    have hfuel : more.length <
        ((pre ++ first) ++ (renderMore more ++ (renderFrac frac ++ rest))).length + 1 := by
      have := renderMore_length more
      simp only [List.length_append]
      omega
    rw [hshape]
    cases frac with
    | none =>
      obtain ⟨h1, h2, h3⟩ := madStop_open hstop rfl
      rw [renderFrac, List.nil_append,
        colon_loop_body pre hpre first more rest _ (by
          rw [renderFrac, List.nil_append] at hfuel
          exact hfuel) hfirst hmore hlt h1 hrd]
      dsimp only
      rw [mad_tail_none _ _ h2 h3]
      dsimp only
      have hv : mad_timer_set (colonSeconds (numVal first) more) 0 0 =
          (Body.colon first more Option.none).value := by
        simp [mad_timer_set, Body.value, fracVal]
      rw [hv]
      rfl
    | some d =>
      unfold fracOk at hfrac
      simp only [Bool.and_eq_true, decide_eq_true_eq] at hfrac
      have hdc : peek ('.' :: (d ++ rest)) ≠ ':' := by
        rw [peek_cons]
        decide
      have hdd : isdigit (peek ('.' :: (d ++ rest))) = false := by
        rw [peek_cons]
        decide
      rw [renderFrac, List.cons_append,
        colon_loop_body pre hpre first more _ _ (by
          rw [renderFrac, List.cons_append] at hfuel
          exact hfuel) hfirst hmore hlt hdc hdd]
      dsimp only
      rw [mad_tail_frac _ d rest hfrac.1 hfrac.2 hrd]
      dsimp only
      have hv : mad_timer_set (colonSeconds (numVal first) more) (numVal d) (10 ^ d.length) =
          (Body.colon first more (some d)).value := by
        have h10 : (10 ^ d.length : Nat) ≠ 0 := by positivity
        simp only [mad_timer_set, Body.value, fracVal, if_neg h10]
        push_cast
        rfl
      rw [hv]
      rfl
  | ratio n d =>
    unfold Body.ok at hb
    simp only [Bool.and_eq_true, decide_eq_true_eq] at hb
    obtain ⟨⟨hn, hd⟩, hpos⟩ := hb
    have hshape : pre ++ ((Body.ratio n d).render ++ rest) =
        (pre ++ n) ++ (renderMore [] ++ ('/' :: (d ++ rest))) := by
      simp only [Body.render, renderMore, List.append_assoc, List.nil_append, List.cons_append]
    have hdc : peek ('/' :: (d ++ rest)) ≠ ':' := by
      rw [peek_cons]
      decide
    have hdd : isdigit (peek ('/' :: (d ++ rest))) = false := by
      rw [peek_cons]
      decide
    have hlt : colonSeconds (numVal n) [] < 2 ^ 64 := by
      unfold numOk at hn
      simp only [Bool.and_eq_true, decide_eq_true_eq] at hn
      rw [colonSeconds]
      omega
    rw [hshape, colon_loop_body pre hpre n [] _ _ (Nat.succ_pos _) hn rfl hlt hdc hdd]
    dsimp only
    rw [mad_tail_ratio _ d rest hd hrd]
    dsimp only
    have hv : mad_timer_set 0 (colonSeconds (numVal n) []) (numVal d) =
        (Body.ratio n d).value := by
      have h0 : numVal d ≠ 0 := by omega
      simp only [mad_timer_set, Body.value, colonSeconds, if_neg h0]
      push_cast
      ring
    rw [hv]
    rfl

/-! ## The loop over the terms -/

theorem opChar_sign (op : Bool) : opChar op = '-' ∨ opChar op = '+' := by
  cases op
  · exact Or.inr rfl
  · exact Or.inl rfl

theorem sign_switch_op (op : Bool) (s : List Char) : sign_switch (opChar op :: s) = (op, s) := by
  have h : ¬ ('+' = '-') := by decide
  cases op
  · unfold sign_switch opChar
    rw [peek_cons]
    simp only [Bool.false_eq_true, if_false, h, if_true, List.tail_cons]
  · unfold sign_switch opChar
    rw [peek_cons]
    simp only [if_true, List.tail_cons]

theorem sign_switch_digit (s : List Char) (h : isdigit (peek s) = true) :
    sign_switch s = (false, s) := by
  have h1 : peek s ≠ '-' := digit_ne h (by decide)
  have h2 : peek s ≠ '+' := digit_ne h (by decide)
  unfold sign_switch
  rw [if_neg h1, if_neg h2]

theorem madStop_op (b : Body) (op : Bool) : madStop b (opChar op) = true := by
  have h1 : isdigit (opChar op) = false := by cases op <;> decide
  have h2 : (decide (opChar op ≠ ':') && decide (opChar op ≠ '.') &&
      decide (opChar op ≠ '/')) = true := by cases op <;> decide
  unfold madStop
  rw [h1, h2]
  simp

theorem sign_pre {sg : Sign} (h : sg ≠ Sign.minus) : sg.render = [] ∨ sg.render = ['+'] := by
  cases sg with
  | none => exact Or.inl rfl
  | plus => exact Or.inr rfl
  | minus => exact absurd rfl h

theorem sign_apply_of_ne {sg : Sign} (h : sg ≠ Sign.minus) (v : ℚ) : sg.apply v = v := by
  cases sg with
  | none => rfl
  | plus => rfl
  | minus => exact absurd rfl h

theorem renderTail_shape (x : Bool × Term) (xs : List (Bool × Term)) (rest : List Char) :
    renderTail (x :: xs) ++ rest =
      opChar x.1 :: (x.2.sign.render ++ (x.2.body.render ++ (renderTail xs ++ rest))) := by
  simp only [renderTail, Term.render, List.cons_append, List.append_assoc]

theorem renderTail_length (xs : List (Bool × Term)) : xs.length ≤ (renderTail xs).length := by
  induction xs with
  | nil => exact Nat.le_refl _
  | cons x xs ih =>
    rw [renderTail, List.length_cons, List.length_cons, List.length_append]
    omega

theorem madStop_next (b : Body) (xs : List (Bool × Term)) (rest : List Char)
    (hstop : madStop (lastBody b xs) (peek rest) = true) :
    madStop b (peek (renderTail xs ++ rest)) = true := by
  cases xs with
  | nil => exact hstop
  | cons x xs =>
    rw [renderTail_shape, peek_cons]
    exact madStop_op b x.1

/-- The outer loop of `parse_mad_time` on a term followed by operator-term
pairs: it adds up the values and stops in front of `rest`. -/
theorem mad_terms_tail (rest : List Char) (hm : peek rest ≠ '-') (hp : peek rest ≠ '+')
    (xs : List (Bool × Term)) :
    ∀ (fuel : Nat) (accum : mad_timer_t) (str : List Char) (m : Bool) (pre : List Char)
      (b : Body), xs.length < fuel → b.ok = true → (pre = [] ∨ pre = ['+']) →
      xs.all (fun x => x.2.body.ok && decide (x.2.sign ≠ Sign.minus)) = true →
      sign_switch str = (m, pre ++ (b.render ++ (renderTail xs ++ rest))) →
      madStop (lastBody b xs) (peek rest) = true →
      mad_terms fuel accum str =
        Scan.done (accum + (if m then -b.value else b.value) + tailValue xs, rest) := by
  induction xs with
  | nil =>
    intro fuel accum str m pre b hfuel hb hpre _ hsw hstop
    obtain ⟨f, rfl⟩ : ∃ f, fuel = f + 1 := ⟨fuel - 1, by omega⟩
    have hor : ¬ (peek rest = '-' ∨ peek rest = '+') := fun h => h.elim hm hp
    rw [renderTail, List.nil_append] at hsw
    rw [mad_terms_succ, mad_term_spec str m pre b rest hsw hpre hb hstop]
    dsimp only
    rw [if_neg hor, tailValue, add_zero]
    rfl
  | cons x xs ih =>
    intro fuel accum str m pre b hfuel hb hpre hall hsw hstop
    obtain ⟨f, rfl⟩ : ∃ f, fuel = f + 1 := ⟨fuel - 1, by omega⟩
    rw [List.all_cons, Bool.and_eq_true, Bool.and_eq_true, decide_eq_true_eq] at hall
    obtain ⟨⟨hxb, hxs⟩, hrest⟩ := hall
    have hstop1 : madStop b (peek (renderTail (x :: xs) ++ rest)) = true :=
      madStop_next b (x :: xs) rest hstop
    rw [mad_terms_succ,
      mad_term_spec str m pre b (renderTail (x :: xs) ++ rest) hsw hpre hb hstop1]
    dsimp only
    rw [renderTail_shape, peek_cons, if_pos (opChar_sign x.1)]
    rw [ih f _ _ x.1 x.2.sign.render x.2.body (by
      simp only [List.length_cons] at hfuel
      omega) hxb (sign_pre hxs) hrest (sign_switch_op _ _) hstop]
    rw [tailValue, Term.value, sign_apply_of_ne hxs]
    unfold mad_timer_add
    rw [add_assoc (accum + _)]

/-! ## Whole expressions -/

theorem skipSpace_of_peek (s : List Char) (h : isspace (peek s) = false) : skipSpace s = s := by
  cases s with
  | nil => rfl
  | cons c cs => exact skipSpace_cons cs h

theorem body_peek {b : Body} (hb : b.ok = true) (rest : List Char) :
    isdigit (peek (b.render ++ rest)) = true := by
  cases b with
  | colon first more frac =>
    unfold Body.ok at hb
    simp only [Bool.and_eq_true, decide_eq_true_eq] at hb
    rw [Body.render, List.append_assoc]
    exact numOk_peek hb.1.1.1 _
  | ratio n m =>
    unfold Body.ok at hb
    simp only [Bool.and_eq_true, decide_eq_true_eq] at hb
    rw [Body.render, List.append_assoc]
    exact numOk_peek hb.1.1 _

theorem expr_shape (e : Expr) (r : List Char) :
    e.render ++ r = e.head.sign.render ++ (e.head.body.render ++ (renderTail e.tail ++ r)) := by
  simp only [Expr.render, Term.render, List.append_assoc]

theorem sign_switch_head (sg : Sign) (b : Body) (hb : b.ok = true) (rest : List Char) :
    sign_switch (sg.render ++ (b.render ++ rest)) =
      (decide (sg = Sign.minus), [] ++ (b.render ++ rest)) := by
  cases sg with
  | none =>
    rw [Sign.render, List.nil_append, sign_switch_digit _ (body_peek hb rest)]
    rfl
  | plus => exact sign_switch_op false _
  | minus => exact sign_switch_op true _

theorem expr_not_space (e : Expr) (he : e.head.body.ok = true) (r : List Char) :
    isspace (peek (e.render ++ r)) = false := by
  rw [expr_shape]
  cases h : e.head.sign with
  | none =>
    rw [Sign.render, List.nil_append]
    exact digit_not_space (body_peek he _)
  | plus =>
    have h0 : isspace '+' = false := by decide
    exact h0
  | minus =>
    have h0 : isspace '-' = false := by decide
    exact h0

theorem head_value (t : Term) :
    (if decide (t.sign = Sign.minus) = true then -t.body.value else t.body.value) = t.value := by
  unfold Term.value
  cases t.sign <;> rfl

/-- On an expression of the grammar followed by `r`, where `r` starts with
nothing that continues the last term, the term loop of `parse_mad_time` yields
the value of the expression and stops in front of `r`. -/
theorem mad_terms_expr (e : Expr) (r : List Char) (he : e.ok = true)
    (hstop : madStop (lastBody e.head.body e.tail) (peek r) = true)
    (hm : peek r ≠ '-') (hp : peek r ≠ '+') :
    mad_terms ((e.render ++ r).length + 1) mad_timer_zero (e.render ++ r) =
      Scan.done (e.value, r) := by
  unfold Expr.ok at he
  rw [Bool.and_eq_true] at he
  have hfuel : e.tail.length < (e.render ++ r).length + 1 := by
    have := renderTail_length e.tail
    simp only [Expr.render, List.length_append]
    omega
  have hsw : sign_switch (e.render ++ r) = (decide (e.head.sign = Sign.minus),
      [] ++ (e.head.body.render ++ (renderTail e.tail ++ r))) := by
    rw [expr_shape]
    exact sign_switch_head _ _ he.1 _
  rw [mad_terms_tail r hm hp e.tail _ mad_timer_zero _ _ [] e.head.body hfuel he.1 (Or.inl rfl)
    he.2 hsw hstop, head_value]
  unfold mad_timer_zero Expr.value
  rw [zero_add]

theorem madStop_nul (b : Body) : madStop b (peek []) = true := by
  have h1 : isdigit (peek []) = false := by decide
  have h2 : (decide (peek [] ≠ ':') && decide (peek [] ≠ '.') && decide (peek [] ≠ '/')) =
      true := by decide
  unfold madStop
  rw [h1, h2]
  simp

/-! ## Theorems: strings of the grammar -/

/-- C1, counterexample: `1+-5` is a string of the grammar (the term `1`, the
operator `+`, the term `-5` with its own sign) whose components 1 and 5 are
non-negative and whose value is -4, yet `parse_mad_time` returns -1 on it. -/
theorem signed_term_after_operator_rejected :
    (Expr.mk ⟨Sign.none, Body.colon ['1'] [] Option.none⟩
        [(false, ⟨Sign.minus, Body.colon ['5'] [] Option.none⟩)]).render = ['1', '+', '-', '5'] ∧
      (Expr.mk ⟨Sign.none, Body.colon ['1'] [] Option.none⟩
        [(false, ⟨Sign.minus, Body.colon ['5'] [] Option.none⟩)]).value = -4 ∧
      parse_mad_time 7 ['1', '+', '-', '5'] = some (-1, 7) := by
  refine ⟨by decide!, by decide!, by decide!⟩

/-- A number beyond the range of `long` is not read with its value: on
`9223372036854775808` (2^63) `strtol` saturates and `parse_mad_time` yields
2^63 - 1; and with 20 digits after the point the power of ten wraps around in
`unsigned long`, so that `0.00000000000000000001` yields 1/7766279631452241920
instead of 10^-20. -/
theorem numbers_out_of_range_are_misread :
    parse_mad_time 0 ['9', '2', '2', '3', '3', '7', '2', '0', '3', '6', '8', '5', '4', '7', '7',
        '5', '8', '0', '8'] = some (0, 9223372036854775807) ∧
      parse_mad_time 0 ['0', '.', '0', '0', '0', '0', '0', '0', '0', '0', '0', '0', '0', '0',
        '0', '0', '0', '0', '0', '0', '0', '1'] = some (0, 1 / 7766279631452241920) := by
  constructor <;> decide!

/-- C1, amended: for every time string of the grammar whose numbers are in
range (`Expr.ok`: each number below 2^63, colon-form seconds below 2^64, at
most 19 digits after the point, positive denominators) and in which no term
after a `+` or `-` operator carries a `-` sign of its own, `parse_mad_time`
returns 0 and stores the value the grammar gives to the string. -/
theorem parse_mad_time_grammar (e : Expr) (timer : mad_timer_t) (he : e.ok = true) :
    parse_mad_time timer e.render = some (0, e.value) := by
  have hs : skipSpace e.render = e.render := by
    have h := expr_not_space e (by
      unfold Expr.ok at he
      rw [Bool.and_eq_true] at he
      exact he.1) []
    rw [List.append_nil] at h
    exact skipSpace_of_peek _ h
  have hn : ¬ (peek (skipSpace []) ≠ Char.ofNat 0) := by decide
  have hm : peek [] ≠ '-' := by decide
  have hp : peek [] ≠ '+' := by decide
  have h := mad_terms_expr e [] he (madStop_nul _) hm hp
  rw [List.append_nil] at h
  unfold parse_mad_time
  rw [hs]
  dsimp only
  rw [h]
  dsimp only
  rw [if_neg hn]

/-- C1, witness: the six strings of the claim, `1:30.250`, `3/4`, `1:00+15`,
`1:00-0.5`, `-5` and `1:2:3.4`. -/
theorem parse_mad_time_grammar_witness :
    parse_mad_time 0 ['1', ':', '3', '0', '.', '2', '5', '0'] = some (0, 361 / 4) ∧
      parse_mad_time 0 ['3', '/', '4'] = some (0, 3 / 4) ∧
      parse_mad_time 0 ['1', ':', '0', '0', '+', '1', '5'] = some (0, 75) ∧
      parse_mad_time 0 ['1', ':', '0', '0', '-', '0', '.', '5'] = some (0, 119 / 2) ∧
      parse_mad_time 0 ['-', '5'] = some (0, -5) ∧
      parse_mad_time 0 ['1', ':', '2', ':', '3', '.', '4'] = some (0, 18617 / 5) := by
  have h1 := parse_mad_time_grammar
    ⟨⟨Sign.none, Body.colon ['1'] [['3', '0']] (some ['2', '5', '0'])⟩, []⟩ 0 (by decide!)
  have h2 := parse_mad_time_grammar ⟨⟨Sign.none, Body.ratio ['3'] ['4']⟩, []⟩ 0 (by decide!)
  have h3 := parse_mad_time_grammar
    ⟨⟨Sign.none, Body.colon ['1'] [['0', '0']] Option.none⟩,
      [(false, ⟨Sign.none, Body.colon ['1', '5'] [] Option.none⟩)]⟩ 0 (by decide!)
  have h4 := parse_mad_time_grammar
    ⟨⟨Sign.none, Body.colon ['1'] [['0', '0']] Option.none⟩,
      [(true, ⟨Sign.none, Body.colon ['0'] [] (some ['5'])⟩)]⟩ 0 (by decide!)
  have h5 := parse_mad_time_grammar ⟨⟨Sign.minus, Body.colon ['5'] [] Option.none⟩, []⟩ 0
    (by decide!)
  have h6 := parse_mad_time_grammar
    ⟨⟨Sign.none, Body.colon ['1'] [['2'], ['3']] (some ['4'])⟩, []⟩ 0 (by decide!)
  refine ⟨h1.trans (by decide!), h2.trans (by decide!), h3.trans (by decide!),
    h4.trans (by decide!), h5.trans (by decide!), h6.trans (by decide!)⟩

/-! ## Where the scan ends, whatever the size of the numbers -/

/-- Whenever a parser returns -1 the caller's value is left as it was. -/
theorem parse_error_keeps_timer (timer : mad_timer_t) (D : Type) (ops : DoubleOps D)
    (dtimer : D) (str : List Char) :
    (∀ t, parse_mad_time timer str = some (-1, t) → t = timer) ∧
      (∀ t, parse_double_time ops dtimer str = some (-1, t) → t = dtimer) := by
  have h01 : ¬ ((0 : Int) = -1) := by decide
  constructor
  · intro t h
    unfold parse_mad_time at h
    dsimp only at h
    split at h
    · exact absurd h (by simp)
    · simp only [Option.some.injEq, Prod.mk.injEq, true_and] at h
      exact h.symm
    · split at h
      · simp only [Option.some.injEq, Prod.mk.injEq, true_and] at h
        exact h.symm
      · simp only [Option.some.injEq, Prod.mk.injEq] at h
        exact absurd h.1 h01
  · intro t h
    unfold parse_double_time at h
    dsimp only at h
    split at h
    · exact absurd h (by simp)
    · simp only [Option.some.injEq, Prod.mk.injEq, true_and] at h
      exact h.symm
    · split at h
      · simp only [Option.some.injEq, Prod.mk.injEq, true_and] at h
        exact h.symm
      · simp only [Option.some.injEq, Prod.mk.injEq] at h
        exact absurd h.1 h01

theorem colon_minus_first (a b : Num) (ha : numOk a = true) (hlt : numVal a * 60 < 2 ^ 64)
    (fuel : Nat) :
    colon_loop (fuel + 1) 0 (a ++ ':' :: '-' :: b) = Scan.done (numVal a * 60, '-' :: b) := by
  have hc : isdigit (peek (':' :: '-' :: b)) = false := by
    rw [peek_cons]
    decide
  have hd : isdigit (peek ('-' :: b)) = false := by
    rw [peek_cons]
    decide
  have h := colon_loop_colon_end fuel 0 (a ++ ':' :: '-' :: b) ('-' :: b) (numVal a)
    (strtol_digits a _ ha hc) hd (by rw [Nat.zero_add]; exact hlt)
  rw [Nat.zero_add] at h
  exact h

theorem colon_number_last (b : Num) (hb : numOk b = true) (fuel : Nat) :
    colon_loop (fuel + 1) 0 b = Scan.done (numVal b, []) := by
  have hd : isdigit (peek []) = false := by decide
  have hc : peek [] ≠ ':' := by decide
  have hst := strtol_digits b [] hb hd
  rw [List.append_nil] at hst
  have hlt : 0 + numVal b < 2 ^ 64 := by
    unfold numOk at hb
    simp only [Bool.and_eq_true, decide_eq_true_eq] at hb
    omega
  have h := colon_loop_last fuel 0 b [] (numVal b) hst hc hd hlt
  rw [Nat.zero_add] at h
  exact h

/-- A number below `2^k` has at most `k` binary digits. -/
theorem bitLen_le (fuel : Nat) : ∀ (n k : Nat), n < 2 ^ k → bitLen fuel n ≤ k := by
  induction fuel with
  | zero =>
    intro n k _
    exact Nat.zero_le _
  | succ f ih =>
    intro n k h
    unfold bitLen
    by_cases hn : n = 0
    · rw [if_pos hn]
      exact Nat.zero_le _
    · rw [if_neg hn]
      cases k with
      | zero =>
        rw [pow_zero] at h
        omega
      | succ k =>
        have h2 : n / 2 < 2 ^ k := by
          rw [pow_succ] at h
          omega
        have h3 := ih (n / 2) k h2
        omega

theorem ilog2_intCast_le (z : Int) (k : Nat) (h : z.natAbs < 2 ^ k) :
    ilog2 (z : ℚ) ≤ (k : Int) - 1 := by
  have h1 := bitLen_le z.natAbs z.natAbs k h
  have h2 : bitLen 1 1 = 1 := rfl
  unfold ilog2
  rw [Rat.num_intCast, Rat.den_intCast, h2]
  dsimp only
  split_ifs <;> omega

theorem pow2_of_nonpos (e : Int) (he : e ≤ 0) : ∃ m : Nat, pow2 e = 1 / (2 : ℚ) ^ m := by
  unfold pow2
  by_cases h : 0 ≤ e
  · rw [if_pos h]
    have h0 : e = 0 := le_antisymm he h
    refine ⟨0, ?_⟩
    rw [h0]
    norm_num
  · rw [if_neg h]
    refine ⟨(-e).toNat, ?_⟩
    push_cast
    rfl

theorem roundHalfEven_intCast (z : Int) : roundHalfEven (z : ℚ) = z := by
  have hf : Rat.floor (z : ℚ) = z := by
    have h := @Int.floor_intCast ℚ _ _ z
    exact h
  unfold roundHalfEven
  dsimp only
  rw [hf, sub_self, if_pos (by norm_num)]

/-- An integer below `2^53` in absolute value is a `double`: rounding leaves it
as it is. -/
theorem toDouble_intCast (z : Int) (h : z.natAbs < 2 ^ 53) : toDouble (z : ℚ) = z := by
  unfold toDouble roundToPrec
  by_cases hz : (z : ℚ) = 0
  · rw [if_pos hz, hz]
  · rw [if_neg hz]
    have he : ilog2 (z : ℚ) - (((53 : Nat) : Int) - 1) ≤ 0 := by
      have := ilog2_intCast_le z 53 h
      omega
    obtain ⟨m, hm⟩ := pow2_of_nonpos _ he
    dsimp only
    rw [hm]
    have e1 : (z : ℚ) / (1 / (2 : ℚ) ^ m) = ((z * 2 ^ m : Int) : ℚ) := by
      push_cast
      field_simp
    rw [e1, roundHalfEven_intCast]
    push_cast
    field_simp

/-- In IEEE double arithmetic the sum `(0 + a) + (-b)` of two integers below `2^53`
is exact. -/
theorem ieee_double_sub_exact (a b : Nat) (ha : a < 2 ^ 53) (hb : b < 2 ^ 53) :
    ieee_double.add (ieee_double.add ieee_double.zero (ieee_double.ofULong a))
        (ieee_double.neg (ieee_double.ofULong b)) = (a : ℚ) - (b : ℚ) := by
  have ea : toDouble (a : ℚ) = (a : ℚ) := by
    have h := toDouble_intCast (a : Int) (by rw [Int.natAbs_ofNat]; exact ha)
    rw [Int.cast_natCast] at h
    exact h
  have eb : toDouble (b : ℚ) = (b : ℚ) := by
    have h := toDouble_intCast (b : Int) (by rw [Int.natAbs_ofNat]; exact hb)
    rw [Int.cast_natCast] at h
    exact h
  have ed : toDouble ((a : ℚ) - (b : ℚ)) = (a : ℚ) - (b : ℚ) := by
    have h := toDouble_intCast ((a : Int) - (b : Int)) (by omega)
    rw [Int.cast_sub, Int.cast_natCast, Int.cast_natCast] at h
    exact h
  show toDouble (toDouble (0 + toDouble (a : ℚ)) + -toDouble (b : ℚ)) = _
  rw [ea, zero_add, ea, eb, ← sub_eq_add_neg, ed]

/-- C7, counterexample: on `1:-30` neither parser returns -1; both return 0
with the value 30 = 1:00 - 30. -/
theorem minus_after_colon_is_accepted :
    parse_mad_time 7 ['1', ':', '-', '3', '0'] = some (0, 30) ∧
      parse_double_time ieee_double 7 ['1', ':', '-', '3', '0'] = some (0, 30) := by
  constructor <;> decide!

/-- C7, amended: a minus sign directly after a colon is not rejected. It ends
the colon form, whose component after the colon is empty and counts as 0, and
is read as the subtraction operator: for numbers `a` and `b` in range the
string `a:-b` makes both parsers return 0. The value of `parse_mad_time` is
`a * 60 - b`; the value of `parse_double_time` is the sum `(0 + a*60) + (-b)`
formed in double arithmetic, which in IEEE arithmetic is `a * 60 - b` whenever
`a * 60` and `b` are below `2^53`. -/
theorem minus_after_colon_subtracts (a b : Num) (timer : mad_timer_t) (D : Type)
    (ops : DoubleOps D) (dtimer : D) (qtimer : ℚ) (ha : numOk a = true) (hb : numOk b = true)
    (hlt : numVal a * 60 < 2 ^ 64) :
    parse_mad_time timer (a ++ ':' :: '-' :: b) =
        some (0, (numVal a : ℚ) * 60 - (numVal b : ℚ)) ∧
      parse_double_time ops dtimer (a ++ ':' :: '-' :: b) =
        some (0, ops.add (ops.add ops.zero (ops.ofULong (numVal a * 60)))
          (ops.neg (ops.ofULong (numVal b)))) ∧
      (numVal a * 60 < 2 ^ 53 → numVal b < 2 ^ 53 →
        parse_double_time ieee_double qtimer (a ++ ':' :: '-' :: b) =
          some (0, (numVal a : ℚ) * 60 - (numVal b : ℚ))) := by
  have hdig : isdigit (peek (a ++ ':' :: '-' :: b)) = true := numOk_peek ha _
  have hs : skipSpace (a ++ ':' :: '-' :: b) = a ++ ':' :: '-' :: b :=
    skipSpace_of_peek _ (digit_not_space hdig)
  have hsw1 := sign_switch_digit _ hdig
  have hsw2 : sign_switch ('-' :: b) = (true, b) := sign_switch_op true b
  have hm1 : peek ('-' :: b) ≠ '.' := by
    rw [peek_cons]
    decide
  have hm2 : peek ('-' :: b) ≠ '/' := by
    rw [peek_cons]
    decide
  have hor : peek ('-' :: b) = '-' ∨ peek ('-' :: b) = '+' := Or.inl rfl
  have hnor : ¬ (peek [] = '-' ∨ peek [] = '+') := by decide
  have hnul : ¬ (peek (skipSpace []) ≠ Char.ofNat 0) := by decide
  have hlen : (a ++ ':' :: '-' :: b).length = (b.length + a.length + 1) + 1 := by
    simp only [List.length_append, List.length_cons]
    omega
  have key : ∀ (E : Type) (ops2 : DoubleOps E) (t2 : E),
      parse_double_time ops2 t2 (a ++ ':' :: '-' :: b) =
        some (0, ops2.add (ops2.add ops2.zero (ops2.ofULong (numVal a * 60)))
          (ops2.neg (ops2.ofULong (numVal b)))) := by
    intro E ops2 t2
    have h00 : ¬ ((0 : Nat) ≠ 0) := by decide
    have hd1 : peek ('-' :: b) ≠ '.' := hm1
    have ht1 : double_term ops2 (a ++ ':' :: '-' :: b) =
        Scan.done (ops2.ofULong (numVal a * 60), '-' :: b) := by
      rw [double_term_of_switch ops2 _ _ _ hsw1, colon_minus_first a b ha hlt]
      dsimp only
      rw [double_tail_none _ hd1]
      dsimp only
      rw [if_neg h00]
      rfl
    have ht2 : double_term ops2 ('-' :: b) =
        Scan.done (ops2.neg (ops2.ofULong (numVal b)), []) := by
      rw [double_term_of_switch ops2 _ _ _ hsw2, colon_number_last b hb]
      dsimp only
      rw [double_tail_nil]
      dsimp only
      rw [if_neg h00]
      rfl
    unfold parse_double_time
    rw [hs]
    dsimp only
    rw [hlen, double_terms_succ, ht1]
    dsimp only
    rw [if_pos hor, double_terms_succ, ht2]
    dsimp only
    rw [if_neg hnor]
    dsimp only
    rw [if_neg hnul]
  refine ⟨?_, key D ops dtimer, ?_⟩
  · have ht1 : mad_term (a ++ ':' :: '-' :: b) =
        Scan.done (mad_timer_set (numVal a * 60) 0 0, '-' :: b) := by
      rw [mad_term_of_switch _ _ _ hsw1, colon_minus_first a b ha hlt]
      dsimp only
      rw [mad_tail_none _ _ hm1 hm2]
      rfl
    have ht2 : mad_term ('-' :: b) = Scan.done (mad_timer_negate (mad_timer_set (numVal b) 0 0),
        []) := by
      rw [mad_term_of_switch _ _ _ hsw2, colon_number_last b hb]
      dsimp only
      rw [mad_tail_nil]
      rfl
    unfold parse_mad_time
    rw [hs]
    dsimp only
    rw [hlen, mad_terms_succ, ht1]
    dsimp only
    rw [if_pos hor, mad_terms_succ, ht2]
    dsimp only
    rw [if_neg hnor]
    dsimp only
    rw [if_neg hnul]
    simp only [mad_timer_add, mad_timer_zero, mad_timer_set, mad_timer_negate, if_true]
    push_cast
    congr 2
    ring
  · intro h53a h53b
    rw [key ℚ ieee_double qtimer, ieee_double_sub_exact _ _ h53a h53b]
    push_cast
    rfl

/-- C7, witness: the string `1:-30` of the claim. -/
theorem minus_after_colon_subtracts_witness :
    parse_mad_time 7 ['1', ':', '-', '3', '0'] = some (0, (1 : ℚ) * 60 - 30) ∧
      parse_double_time ieee_double 7 ['1', ':', '-', '3', '0'] =
        some (0, ieee_double.add (ieee_double.add ieee_double.zero (ieee_double.ofULong 60))
          (ieee_double.neg (ieee_double.ofULong 30))) ∧
      parse_double_time ieee_double 7 ['1', ':', '-', '3', '0'] = some (0, (1 : ℚ) * 60 - 30) := by
  have h := minus_after_colon_subtracts ['1'] ['3', '0'] 7 ℚ ieee_double 7 7 (by decide!)
    (by decide!) (by decide!)
  have h1 : ((numVal ['1'] : Nat) : ℚ) * 60 - ((numVal ['3', '0'] : Nat) : ℚ) = (1 : ℚ) * 60 - 30 := by
    decide!
  have h3 := h.2.2 (by decide!) (by decide!)
  exact ⟨h.1.trans (by rw [h1]), h.2.1, h3.trans (by rw [h1])⟩

/-- Beyond `2^53` the double sum is rounded: on `100000000000000001:-0`
`parse_mad_time` gives 6000000000000000060 and `parse_double_time` the nearest
`double`, 6000000000000000000. -/
theorem minus_after_colon_double_rounds :
    parse_mad_time 7 ['1', '0', '0', '0', '0', '0', '0', '0', '0', '0', '0', '0', '0', '0', '0',
        '0', '0', '1', ':', '-', '0'] = some (0, 6000000000000000060) ∧
      parse_double_time ieee_double 7 ['1', '0', '0', '0', '0', '0', '0', '0', '0', '0', '0', '0',
        '0', '0', '0', '0', '0', '1', ':', '-', '0'] = some (0, 6000000000000000000) := by
  constructor <;> decide!

/-! ## Theorems: the fraction form in the double parser -/

/-- C9: on the fraction form `3/4` the double parser returns -1 and leaves the
caller's value (7 here) as it was, while `parse_mad_time` returns 0 with the
value 3/4: `parse_double_time` has no `/` branch. -/
theorem double_parser_rejects_fraction_form :
    parse_double_time ieee_double 7 ['3', '/', '4'] = some (-1, 7) ∧
      parse_mad_time 7 ['3', '/', '4'] = some (0, 3 / 4) := by
  constructor <;> decide!

/-! ## Theorems: the window of the sampled-file backend -/

theorem pollKeyboard_no_keys (seek : Option (ℚ → World → World)) (w : World)
    (h : w.keys = []) : pollKeyboard seek w = w := by
  unfold pollKeyboard
  rw [h]

/-- Without keyboard input the read loop pushes the frames available from the
read position, at most `maxFrames - readFrames` of them. -/
theorem sndfile_loop_count (frames : Nat) (maxFrames : Int) (fuel : Nat) :
    ∀ (readFrames : Int) (w : World), w.keys = [] → w.quit = false →
      (maxFrames - readFrames).toNat < fuel →
      ∃ w', sndfile_loop frames maxFrames fuel readFrames w = some w' ∧
        w'.putFrames = w.putFrames + min (frames - w.sfPos) (maxFrames - readFrames).toNat := by
  induction fuel with
  | zero =>
    intro readFrames w _ _ h
    omega
  | succ f ih =>
    intro readFrames w hk hq hfuel
    rw [sndfile_loop]
    dsimp only
    by_cases hc : 0 < min 512 (frames - w.sfPos) ∧ readFrames < maxFrames
    · rw [if_pos hc]
      by_cases hcap : readFrames + ((min 512 (frames - w.sfPos) : Nat) : Int) > maxFrames
      · rw [if_pos hcap]
        obtain ⟨w', hw', hput⟩ := ih (readFrames + (maxFrames - readFrames))
          { w with sfPos := w.sfPos + min 512 (frames - w.sfPos),
                   putFrames := w.putFrames + (maxFrames - readFrames).toNat } hk hq (by omega)
        rw [pollKeyboard_no_keys _ _ (by exact hk)]
        dsimp only
        rw [if_neg (by rw [hq]; exact Bool.false_ne_true)]
        refine ⟨w', hw', ?_⟩
        rw [hput]
        dsimp only
        omega
      · rw [if_neg hcap]
        obtain ⟨w', hw', hput⟩ := ih (readFrames + ((min 512 (frames - w.sfPos) : Nat) : Int))
          { w with sfPos := w.sfPos + min 512 (frames - w.sfPos),
                   putFrames := w.putFrames +
                     (((min 512 (frames - w.sfPos) : Nat) : Int)).toNat } hk hq (by omega)
        rw [pollKeyboard_no_keys _ _ (by exact hk)]
        dsimp only
        rw [if_neg (by rw [hq]; exact Bool.false_ne_true)]
        refine ⟨w', hw', ?_⟩
        rw [hput]
        dsimp only
        omega
    · rw [if_neg hc]
      refine ⟨_, rfl, ?_⟩
      dsimp only
      omega

/-- C2, counterexample: a 10 s mono 44.1 kHz file (441000 frames) played with
`-b 1 -e 9` and no key pressed pushes 396900 frames (9.0 s) to the DSP engine,
which is not within one frame of `(9 - 1) * 44100 = 352800`. -/
theorem window_example_plays_nine_seconds :
    (play_sndfile ieee_double (some ['1']) (some ['9'])
        (World.initial [] (some (441000, 44100)) [])).map (fun r => (r.1, r.2.putFrames)) =
      some (1, 396900) ∧ ¬ ((396900 : Int) - 352800 ≤ 1) := by
  constructor
  · decide!
  · decide

/-- C2, amended: for `play_sndfile` on a recognised file of `frames` frames at
sample rate `rate`, with begin and end given and parsed to `tb` and `te`, the
audio device free and openable and no key pressed, the number of frames pushed
to the DSP engine is `min (frames - b) e`, where `b` is the start frame
`(sf_count_t)(tb * rate)` (clamped to the file) and `e` is
`(sf_count_t)(te * rate)`: the end value caps the number of frames played,
counted from the begin position. -/
theorem play_sndfile_window {D : Type} (ops : DoubleOps D) (bstr estr : List Char) (tb te : D)
    (w : World) (frames : Nat) (rate : Int) (hsf : w.sfinfo = some (frames, rate))
    (hb : parse_double_time ops ops.zero bstr = some (0, tb))
    (he : parse_double_time ops ops.zero estr = some (0, te))
    (hdev : w.audio_device = false) (hao : w.aoAvailable = true) (hq : w.quit = false)
    (hk : w.keys = []) :
    ∃ w', play_sndfile ops (some bstr) (some estr) w = some (1, w') ∧
      w'.putFrames = w.putFrames +
        min (frames - sf_seek frames (ops.toFrames tb rate)) (ops.toFrames te rate).toNat := by
  have h01 : ¬ ((0 : Int) = -1) := by decide
  obtain ⟨w', hw', hput⟩ := sndfile_loop_count frames (ops.toFrames te rate)
    ((ops.toFrames te rate).toNat + 1) 0
    { w with sfinfo := some (frames, rate), sfPos := sf_seek frames (ops.toFrames tb rate),
             audio_device := true } hk hq (by
      rw [Int.sub_zero]
      exact Nat.lt_succ_self _)
  refine ⟨w', ?_, ?_⟩
  · unfold play_sndfile
    rw [hsf]
    dsimp only
    rw [hb, he]
    dsimp only
    rw [if_neg h01]
    dsimp only
    rw [if_neg h01]
    dsimp only
    rw [if_neg (by rw [hdev]; exact Bool.false_ne_true),
      if_neg (by rw [hao]; exact Bool.false_ne_true)]
    rw [hw']
  · rw [hput, Int.sub_zero]

/-- C2, witness: the file of the counterexample; 396900 = min (441000 - 44100)
396900. -/
theorem play_sndfile_window_witness :
    ∃ w', play_sndfile ieee_double (some ['1']) (some ['9'])
        (World.initial [] (some (441000, 44100)) []) = some (1, w') ∧
      w'.putFrames = (World.initial [] (some (441000, 44100)) []).putFrames +
        min (441000 - sf_seek 441000 (ieee_double.toFrames 1 44100))
          (ieee_double.toFrames 9 44100).toNat :=
  play_sndfile_window ieee_double ['1'] ['9'] 1 9 (World.initial [] (some (441000, 44100)) [])
    441000 44100 rfl (by decide!) (by decide!) rfl rfl rfl rfl

/-! ## Theorems: playing without an end position -/

/-- C3: without an end position `maxFrames` stays 0, the loop condition
`readFrames < maxFrames` fails at once and nothing is pushed to the DSP engine,
whatever the file, the begin position and the keyboard input; for example a
recognised 10 s file played without options pushes 0 of its 441000 frames. -/
theorem no_end_plays_nothing {D : Type} (ops : DoubleOps D) (begin_ : Option (List Char))
    (w : World) :
    (∃ r w', play_sndfile ops begin_ Option.none w = some (r, w') ∧ w'.putFrames = w.putFrames) ∧
      (play_sndfile ieee_double Option.none Option.none
        (World.initial [] (some (441000, 44100)) [])).map (fun r => (r.1, r.2.putFrames)) =
        some (1, 0) := by
  have hloop : ∀ (frames : Nat) (v : World),
      sndfile_loop frames 0 ((0 : Int).toNat + 1) 0 v =
        some { v with sfPos := v.sfPos + min 512 (frames - v.sfPos) } := by
    intro frames v
    have hc : ¬ (0 < min 512 (frames - v.sfPos) ∧ (0 : Int) < 0) := fun h => by omega
    rw [Int.toNat_zero, sndfile_loop]
    dsimp only
    rw [if_neg hc]
  have htail : ∀ (frames : Nat) (v : World) , v.putFrames = w.putFrames →
      ∃ r w', (if v.audio_device = true then some ((1 : Int), v)
        else if (!v.aoAvailable) = true then some (1, v)
        else match sndfile_loop frames 0 ((0 : Int).toNat + 1) 0
            { v with audio_device := true } with
          | Option.none => Option.none
          | some w => some (1, w)) = some (r, w') ∧ w'.putFrames = w.putFrames := by
    intro frames v hv
    by_cases h1 : v.audio_device = true
    · rw [if_pos h1]
      exact ⟨_, _, rfl, hv⟩
    · rw [if_neg h1]
      by_cases h2 : (!v.aoAvailable) = true
      · rw [if_pos h2]
        exact ⟨_, _, rfl, hv⟩
      · rw [if_neg h2, hloop]
        exact ⟨_, _, rfl, hv⟩
  constructor
  · unfold play_sndfile
    cases hsf : w.sfinfo with
    | none => exact ⟨_, _, rfl, rfl⟩
    | some p =>
      obtain ⟨frames, rate⟩ := p
      dsimp only
      cases begin_ with
      | none =>
        dsimp only
        exact htail frames { w with sfinfo := some (frames, rate), sfPos := 0 } rfl
      | some str =>
        dsimp only
        rcases parse_double_time_total ops ops.zero str with hp | ⟨v, hp⟩
        · rw [hp]
          dsimp only
          rw [if_pos rfl]
          exact ⟨_, _, rfl, rfl⟩
        · have h01 : ¬ ((0 : Int) = -1) := by decide
          rw [hp]
          dsimp only
          rw [if_neg h01]
          dsimp only
          exact htail frames { w with sfinfo := some (frames, rate),
                                      sfPos := sf_seek frames (ops.toFrames v rate) } rfl
  · decide!

/-! ## Theorems: tempo and pitch keys -/

set_option maxRecDepth 1000000 in
/-- C4: from the defaults `tempo = 1.0`, `pitchCentDelta = 0`, 99 presses of
`-` leave the `float` tempo at 5369063/536870912 (about 0.0100006), below
0.02: after 98 presses the accumulated rounding leaves it just above the
`double` 0.02, so the guard `tempo > 0.02` lets one more step through. In the
same way 400 presses of `+` leave it at 5242901/1048576 (about 5.00002), above
5.0. -/
theorem tempo_leaves_its_range :
    (pollAll Option.none 99
        (World.initial [] Option.none (List.replicate 99 (some (Key.chr '-'))))).tempo =
        5369063 / 536870912 ∧
      (5369063 / 536870912 : ℚ) < 2 / 100 ∧
      (pollAll Option.none 400
        (World.initial [] Option.none (List.replicate 400 (some (Key.chr '+'))))).tempo =
        5242901 / 1048576 ∧
      (5 : ℚ) < 5242901 / 1048576 := by
  refine ⟨by decide!, by norm_num, by decide!, by norm_num⟩

/-! ## The backends always return -/

theorem sndfile_loop_total (frames : Nat) (maxFrames : Int) (fuel : Nat) :
    ∀ (readFrames : Int) (w : World), (maxFrames - readFrames).toNat < fuel →
      ∃ w', sndfile_loop frames maxFrames fuel readFrames w = some w' := by
  induction fuel with
  | zero =>
    intro readFrames w h
    omega
  | succ f ih =>
    intro readFrames w hfuel
    rw [sndfile_loop]
    dsimp only
    by_cases hc : 0 < min 512 (frames - w.sfPos) ∧ readFrames < maxFrames
    · rw [if_pos hc]
      by_cases hcap : readFrames + ((min 512 (frames - w.sfPos) : Nat) : Int) > maxFrames
      · rw [if_pos hcap]
        by_cases hq : (pollKeyboard (some seek_sndfile)
            { w with sfPos := w.sfPos + min 512 (frames - w.sfPos),
                     putFrames := w.putFrames + (maxFrames - readFrames).toNat }).quit = true
        · rw [if_pos hq]
          exact ⟨_, rfl⟩
        · rw [if_neg hq]
          exact ih _ _ (by omega)
      · rw [if_neg hcap]
        by_cases hq : (pollKeyboard (some seek_sndfile)
            { w with sfPos := w.sfPos + min 512 (frames - w.sfPos),
                     putFrames := w.putFrames +
                       (((min 512 (frames - w.sfPos) : Nat) : Int)).toNat }).quit = true
        · rw [if_pos hq]
          exact ⟨_, rfl⟩
        · rw [if_neg hq]
          exact ih _ _ (by omega)
    · rw [if_neg hc]
      exact ⟨_, rfl⟩

/-- The function `play_sndfile` always returns, with 0 or 1; when it returns 0 the offset
of `fd` is 0. -/
theorem play_sndfile_total {D : Type} (ops : DoubleOps D) (begin_ end_ : Option (List Char))
    (w : World) :
    ∃ r w', play_sndfile ops begin_ end_ w = some (r, w') ∧ (r = 0 ∨ r = 1) ∧
      (r = 0 → w'.fdOffset = 0) := by
  have h01 : ¬ ((0 : Int) = -1) := by decide
  have h10 : ¬ ((1 : Int) = 0) := by decide
  have hlast : ∀ (frames : Nat) (maxFrames : Int) (v : World),
      ∃ r w', (if v.audio_device = true then some ((1 : Int), v)
        else if (!v.aoAvailable) = true then some (1, v)
        else match sndfile_loop frames maxFrames (maxFrames.toNat + 1) 0
            { v with audio_device := true } with
          | Option.none => Option.none
          | some w => some (1, w)) = some (r, w') ∧ (r = 0 ∨ r = 1) ∧
        (r = 0 → w'.fdOffset = 0) := by
    intro frames maxFrames v
    by_cases h1 : v.audio_device = true
    · rw [if_pos h1]
      exact ⟨_, _, rfl, Or.inr rfl, fun h => absurd h h10⟩
    · rw [if_neg h1]
      by_cases h2 : (!v.aoAvailable) = true
      · rw [if_pos h2]
        exact ⟨_, _, rfl, Or.inr rfl, fun h => absurd h h10⟩
      · rw [if_neg h2]
        obtain ⟨w', hw'⟩ := sndfile_loop_total frames maxFrames (maxFrames.toNat + 1) 0
          { v with audio_device := true } (by
            rw [Int.sub_zero]
            exact Nat.lt_succ_self _)
        rw [hw']
        exact ⟨_, _, rfl, Or.inr rfl, fun h => absurd h h10⟩
  have hend : ∀ (frames : Nat) (rate : Int) (v : World),
      ∃ r w', (match (match end_ with
          | Option.none => some (some (0 : Int))
          | some str =>
            match parse_double_time ops ops.zero str with
            | Option.none => Option.none
            | some (r, time) =>
              if r = -1 then some Option.none else some (some (ops.toFrames time rate))) with
        | Option.none => Option.none
        | some Option.none => some ((1 : Int), v)
        | some (some maxFrames) =>
          if v.audio_device = true then some ((1 : Int), v)
          else if (!v.aoAvailable) = true then some (1, v)
          else match sndfile_loop frames maxFrames (maxFrames.toNat + 1) 0
              { v with audio_device := true } with
            | Option.none => Option.none
            | some w => some (1, w)) = some (r, w') ∧ (r = 0 ∨ r = 1) ∧
        (r = 0 → w'.fdOffset = 0) := by
    intro frames rate v
    cases end_ with
    | none => exact hlast frames 0 v
    | some str =>
      dsimp only
      rcases parse_double_time_total ops ops.zero str with hp | ⟨t, hp⟩
      · rw [hp]
        dsimp only
        rw [if_pos rfl]
        exact ⟨_, _, rfl, Or.inr rfl, fun h => absurd h h10⟩
      · rw [hp]
        dsimp only
        rw [if_neg h01]
        exact hlast frames _ v
  unfold play_sndfile
  cases hsf : w.sfinfo with
  | none => exact ⟨_, _, rfl, Or.inl rfl, fun _ => rfl⟩
  | some p =>
    obtain ⟨frames, rate⟩ := p
    dsimp only
    cases begin_ with
    | none =>
      dsimp only
      exact hend frames rate { w with sfinfo := some (frames, rate), sfPos := 0 }
    | some str =>
      dsimp only
      rcases parse_double_time_total ops ops.zero str with hp | ⟨t, hp⟩
      · rw [hp]
        dsimp only
        rw [if_pos rfl]
        exact ⟨_, _, rfl, Or.inr rfl, fun h => absurd h h10⟩
      · rw [hp]
        dsimp only
        rw [if_neg h01]
        dsimp only
        exact hend frames rate { w with sfinfo := some (frames, rate),
                                        sfPos := sf_seek frames (ops.toFrames t rate) }

theorem handleKey_none_file (k : Key) (w : World) :
    (handleKey Option.none k w).file = w.file := by
  unfold handleKey
  by_cases h0 : k = Key.chr 'l' ∨ k = Key.right
  · rw [if_pos h0]
  rw [if_neg h0]
  by_cases h1 : k = Key.chr 'h' ∨ k = Key.left
  · rw [if_pos h1]
  rw [if_neg h1]
  by_cases h2 : k = Key.chr '+'
  · rw [if_pos h2]
    split <;> rfl
  rw [if_neg h2]
  by_cases h3 : k = Key.chr '-'
  · rw [if_pos h3]
    split <;> rfl
  rw [if_neg h3]
  by_cases h4 : k = Key.chr 'c'
  · rw [if_pos h4]
  rw [if_neg h4]
  by_cases h5 : k = Key.chr 'C'
  · rw [if_pos h5]
    split <;> rfl
  rw [if_neg h5]
  by_cases h6 : k = Key.chr 's' ∨ k = Key.down
  · rw [if_pos h6]
  rw [if_neg h6]
  by_cases h7 : k = Key.chr 'S' ∨ k = Key.up
  · rw [if_pos h7]
    split <;> rfl
  rw [if_neg h7]
  by_cases h8 : k = Key.chr 'q' ∨ k = Key.f10
  · rw [if_pos h8]
  rw [if_neg h8]

theorem pollKeyboard_none_file (w : World) : (pollKeyboard Option.none w).file = w.file := by
  unfold pollKeyboard
  split
  · rfl
  · rfl
  · exact handleKey_none_file _ _

theorem speex_frames_file (frame_size : Nat) (skip_samples : Int) (n : Nat) :
    ∀ (total : Int) (w : World),
      (speex_frames frame_size skip_samples n total w).2.file = w.file := by
  induction n with
  | zero =>
    intro total w
    rfl
  | succ n ih =>
    intro total w
    rw [speex_frames, ih]
    split <;> rfl

theorem speex_packet_total {D : Type} (ops : DoubleOps D) (lib : SpeexLib)
    (begin_ : Option (List Char)) (p : Packet) (st : SpeexState) (w : World) :
    ∃ fl, speex_packet ops lib begin_ p st w = some fl ∧ fl.Keeps st w := by
  have h01 : ¬ ((0 : Int) = -1) := by decide
  unfold speex_packet
  by_cases h0 : st.packet_count = 0
  · rw [if_pos h0]
    cases p.header with
    | none => exact ⟨_, rfl, trivial⟩
    | some h =>
      dsimp only
      by_cases c1 : h.mode ≥ lib.SPEEX_NB_MODES
      · rw [if_pos c1]
        exact ⟨_, rfl, trivial⟩
      rw [if_neg c1]
      by_cases c2 : h.speex_version_id > 1
      · rw [if_pos c2]
        exact ⟨_, rfl, trivial⟩
      rw [if_neg c2]
      by_cases c3 : lib.bitstream_version h.mode < h.mode_bitstream_version
      · rw [if_pos c3]
        exact ⟨_, rfl, trivial⟩
      rw [if_neg c3]
      by_cases c4 : lib.bitstream_version h.mode > h.mode_bitstream_version
      · rw [if_pos c4]
        exact ⟨_, rfl, trivial⟩
      rw [if_neg c4]
      by_cases c5 : (!lib.decoder_init_ok) = true
      · rw [if_pos c5]
        exact ⟨_, rfl, trivial⟩
      rw [if_neg c5]
      have hdev : ∀ (st' : SpeexState), st'.pos = st.pos →
          ∃ fl, (if w.audio_device = true then some (Flow.ret 1 w)
            else if (!w.aoAvailable) = true then some (Flow.ret 1 w)
            else some (Flow.next st' { w with audio_device := true })) = some fl ∧
              fl.Keeps st w := by
        intro st' hpos
        by_cases d1 : w.audio_device = true
        · rw [if_pos d1]
          exact ⟨_, rfl, trivial⟩
        rw [if_neg d1]
        by_cases d2 : (!w.aoAvailable) = true
        · rw [if_pos d2]
          exact ⟨_, rfl, trivial⟩
        rw [if_neg d2]
        exact ⟨_, rfl, hpos, rfl⟩
      cases begin_ with
      | none =>
        dsimp only
        exact hdev _ rfl
      | some str =>
        dsimp only
        rcases parse_double_time_total ops ops.zero str with hp | ⟨t, hp⟩
        · rw [hp]
          dsimp only
          rw [if_pos rfl]
          exact ⟨_, rfl, trivial⟩
        · rw [hp]
          dsimp only
          rw [if_neg h01]
          dsimp only
          exact hdev _ rfl
  · rw [if_neg h0]
    by_cases h1 : st.packet_count = 1
    · rw [if_pos h1]
      exact ⟨_, rfl, rfl, rfl⟩
    rw [if_neg h1]
    by_cases h2 : st.packet_count ≤ 1 + st.extra_headers
    · rw [if_pos h2]
      exact ⟨_, rfl, rfl, rfl⟩
    rw [if_neg h2]
    dsimp only
    by_cases hq : (pollKeyboard Option.none w).quit = true
    · rw [if_pos hq]
      exact ⟨_, rfl, trivial⟩
    · rw [if_neg hq]
      refine ⟨_, rfl, rfl, ?_⟩
      dsimp only
      rw [speex_frames_file, pollKeyboard_none_file]

theorem speex_packets_total {D : Type} (ops : DoubleOps D) (lib : SpeexLib)
    (begin_ : Option (List Char)) (ps : List Packet) :
    ∀ (st : SpeexState) (w : World),
      ∃ fl, speex_packets ops lib begin_ ps st w = some fl ∧ fl.Keeps st w := by
  induction ps with
  | nil =>
    intro st w
    exact ⟨_, rfl, rfl, rfl⟩
  | cons p ps ih =>
    intro st w
    rw [speex_packets]
    by_cases he : st.eos = true
    · rw [if_pos he]
      exact ⟨_, rfl, rfl, rfl⟩
    · rw [if_neg he]
      obtain ⟨fl, hfl, hk⟩ := speex_packet_total ops lib begin_ p st w
      rw [hfl]
      cases fl with
      | next st' w' =>
        dsimp only
        obtain ⟨fl2, hfl2, hk2⟩ := ih st' w'
        refine ⟨fl2, hfl2, ?_⟩
        cases fl2 with
        | next st2 w2 => exact ⟨hk2.1.trans hk.1, hk2.2.trans hk.2⟩
        | ret c w2 => trivial
        | close st2 w2 => trivial
      | ret c w' => exact ⟨_, rfl, trivial⟩
      | close st' w' => exact ⟨_, rfl, trivial⟩

theorem speex_loop_total {D : Type} (ops : DoubleOps D) (lib : SpeexLib)
    (begin_ : Option (List Char)) (fuel : Nat) :
    ∀ (st : SpeexState) (w : World), w.file.length - st.pos < fuel →
      ∃ r, speex_loop ops lib begin_ fuel st w = some r := by
  induction fuel with
  | zero =>
    intro st w h
    omega
  | succ f ih =>
    intro st w hfuel
    rw [speex_loop]
    dsimp only
    obtain ⟨fl, hfl, hk⟩ := speex_packets_total ops lib begin_
      (lib.packets (st.fed ++ List.take 200 (List.drop st.pos w.file)))
      { st with pos := st.pos + (List.take 200 (List.drop st.pos w.file)).length,
                fed := st.fed ++ List.take 200 (List.drop st.pos w.file) }
      { w with fdOffset := st.pos + (List.take 200 (List.drop st.pos w.file)).length }
    rw [hfl]
    cases fl with
    | ret c w' => exact ⟨_, rfl⟩
    | close st' w' => exact ⟨_, rfl⟩
    | next st' w' =>
      dsimp only
      by_cases hlen : (List.take 200 (List.drop st.pos w.file)).length < 200
      · rw [if_pos hlen]
        exact ⟨_, rfl⟩
      · rw [if_neg hlen]
        apply ih
        have h1 : st'.pos = st.pos + (List.take 200 (List.drop st.pos w.file)).length := hk.1
        have h2 : w'.file = w.file := hk.2
        rw [h1, h2]
        rw [List.length_take, List.length_drop] at hlen ⊢
        omega

/-- The function `play_speex` always returns. -/
theorem play_speex_total {D : Type} (ops : DoubleOps D) (lib : SpeexLib)
    (begin_ : Option (List Char)) (w : World) :
    ∃ r, play_speex ops lib begin_ w = some r := by
  unfold play_speex
  by_cases h : (!lib.fdopen_ok) = true
  · rw [if_pos h]
    exact ⟨_, rfl⟩
  · rw [if_neg h]
    exact speex_loop_total ops lib begin_ _ _ _ (by
      dsimp only
      omega)

/-- The function `play_mpeg` always returns. -/
theorem play_mpeg_total (lib : MpegLib) (begin_ end_ : Option (List Char)) (w : World) :
    ∃ r, play_mpeg lib begin_ end_ w = some r := by
  have h01 : ¬ ((0 : Int) = -1) := by decide
  have hend : ∀ (player : Player),
      ∃ r, (match (match end_ with
          | Option.none => some (some player)
          | some str =>
            match parse_mad_time player.duration str with
            | Option.none => Option.none
            | some (r, t) =>
              if r = -1 then some Option.none
              else some (some { player with duration := t,
                                            options := player.options ||| PLAYER_OPTION_TIMED })) with
        | Option.none => Option.none
        | some Option.none => some ((1 : Int), w)
        | some (some player) =>
          if (!lib.munmap_ok) = true then some (4, (lib.mad_decoder_run player w).2)
          else some ((lib.mad_decoder_run player w).1, (lib.mad_decoder_run player w).2)) =
        some r := by
    intro player
    cases end_ with
    | none =>
      dsimp only
      split <;> exact ⟨_, rfl⟩
    | some str =>
      dsimp only
      rcases parse_mad_time_total player.duration str with hp | ⟨t, hp⟩
      · rw [hp]
        dsimp only
        rw [if_pos rfl]
        exact ⟨_, rfl⟩
      · rw [hp]
        dsimp only
        rw [if_neg h01]
        dsimp only
        split <;> exact ⟨_, rfl⟩
  unfold play_mpeg
  by_cases c1 : (!lib.fstat_ok || decide (w.file.length = 0)) = true
  · rw [if_pos c1]
    exact ⟨_, rfl⟩
  rw [if_neg c1]
  by_cases c2 : (!lib.mmap_ok) = true
  · rw [if_pos c2]
    exact ⟨_, rfl⟩
  rw [if_neg c2]
  dsimp only
  cases begin_ with
  | none =>
    dsimp only
    exact hend _
  | some str =>
    dsimp only
    rcases parse_mad_time_total mad_timer_zero str with hp | ⟨t, hp⟩
    · rw [hp]
      dsimp only
      rw [if_pos rfl]
      exact ⟨_, rfl⟩
    · rw [hp]
      dsimp only
      rw [if_neg h01]
      dsimp only
      exact hend _

/-! ## Theorems: the file offset after a probe -/

theorem speex_loop_no_packets {D : Type} (ops : DoubleOps D) (lib : SpeexLib)
    (begin_ : Option (List Char)) (hp : ∀ bytes, lib.packets bytes = []) (fuel : Nat) :
    ∀ (st : SpeexState) (w : World), st.stc = false → st.pos ≤ w.file.length →
      w.file.length - st.pos < fuel →
      ∃ w', speex_loop ops lib begin_ fuel st w = some (0, w') ∧
        w'.fdOffset = w.file.length := by
  induction fuel with
  | zero =>
    intro st w _ _ h
    omega
  | succ f ih =>
    intro st w hstc hpos hfuel
    rw [speex_loop]
    dsimp only
    rw [hp, speex_packets]
    dsimp only
    by_cases hlen : (List.take 200 (List.drop st.pos w.file)).length < 200
    · rw [if_pos hlen]
      unfold speex_close
      dsimp only
      rw [if_neg (by rw [hstc]; exact Bool.false_ne_true)]
      refine ⟨_, rfl, ?_⟩
      dsimp only
      rw [List.length_take, List.length_drop] at hlen ⊢
      omega
    · rw [if_neg hlen]
      obtain ⟨w', hw', hoff⟩ := ih
        { st with pos := st.pos + (List.take 200 (List.drop st.pos w.file)).length,
                  fed := st.fed ++ List.take 200 (List.drop st.pos w.file) }
        { w with fdOffset := st.pos + (List.take 200 (List.drop st.pos w.file)).length }
        hstc (by
          dsimp only
          rw [List.length_take, List.length_drop] at hlen ⊢
          omega) (by
          dsimp only
          rw [List.length_take, List.length_drop] at hlen ⊢
          omega)
      exact ⟨w', hw', hoff⟩

/-- C5: when no Ogg page is found in the input, `play_speex` started at
offset 0 reads the file to its end, reaches `close` without a decoder and
returns 0 without rewinding: the offset of `fd` is the length of the file, not
0, for every non-empty file. -/
theorem play_speex_not_mine_offset {D : Type} (ops : DoubleOps D) (lib : SpeexLib)
    (begin_ : Option (List Char)) (w : World) (hopen : lib.fdopen_ok = true)
    (hp : ∀ bytes, lib.packets bytes = []) (h0 : w.fdOffset = 0) :
    ∃ w', play_speex ops lib begin_ w = some (0, w') ∧ w'.fdOffset = w.file.length := by
  unfold play_speex
  rw [if_neg (by rw [hopen]; exact Bool.false_ne_true)]
  exact speex_loop_no_packets ops lib begin_ hp _ _ w rfl (by
    dsimp only
    omega) (by
    dsimp only
    omega)

/-- C5, at the failing input: on a file that holds the single byte `x`
`play_sndfile` returns 0 with the offset at 0, and `play_speex` then returns 0
with the offset at 1. -/
theorem play_speex_not_mine_offset_witness :
    (play_sndfile ieee_double Option.none Option.none
        (World.initial [120] Option.none [])).map (fun r => (r.1, r.2.fdOffset)) = some (0, 0) ∧
      ∃ w', play_speex ieee_double no_ogg Option.none (World.initial [120] Option.none []) =
        some (0, w') ∧ w'.fdOffset = 1 :=
  ⟨by decide!, play_speex_not_mine_offset ieee_double no_ogg Option.none
    (World.initial [120] Option.none []) rfl (fun _ => rfl) rfl⟩

/-! ## Theorems: the exit status -/

theorem main_dispatch_total {D : Type} (env : Env D) (o : Options) (w : World) :
    ∃ w', main_dispatch env o w = some w' := by
  unfold main_dispatch
  obtain ⟨r1, w1, h1, _⟩ := play_sndfile_total env.ops o.begin_time o.end_time w
  rw [h1]
  dsimp only
  by_cases c1 : r1 ≠ 0
  · rw [if_pos c1]
    exact ⟨_, rfl⟩
  · rw [if_neg c1]
    obtain ⟨r2, h2⟩ := play_speex_total env.ops env.speex o.begin_time w1
    rw [h2]
    dsimp only
    by_cases c2 : r2.1 ≠ 0
    · rw [if_pos c2]
      exact ⟨_, rfl⟩
    · rw [if_neg c2]
      obtain ⟨r3, h3⟩ := play_mpeg_total env.mpeg o.begin_time o.end_time r2.2
      rw [h3]
      exact ⟨_, rfl⟩

/-- The function `main` always returns. -/
theorem main_total {D : Type} (env : Env D) (opts : List Opt) (args : List (List Char))
    (w : World) : ∃ r, main env opts args w = some r := by
  unfold main
  cases main_options opts { begin_time := Option.none, end_time := Option.none } w with
  | inl code => exact ⟨_, rfl⟩
  | inr p =>
    obtain ⟨o, w1⟩ := p
    dsimp only
    cases args with
    | nil => exact ⟨_, rfl⟩
    | cons a rest =>
      cases rest with
      | cons b more => exact ⟨_, rfl⟩
      | nil =>
        dsimp only
        by_cases c0 : (!env.open_ok) = true
        · rw [if_pos c0]
          exact ⟨_, rfl⟩
        rw [if_neg c0]
        by_cases c1 : (!env.save_sigtstp_ok) = true
        · rw [if_pos c1]
          exact ⟨_, rfl⟩
        rw [if_neg c1]
        by_cases c2 : (!env.save_sigint_ok) = true
        · rw [if_pos c2]
          exact ⟨_, rfl⟩
        rw [if_neg c2]
        by_cases c3 : (!env.set_first_ok) = true
        · rw [if_pos c3]
          exact ⟨_, rfl⟩
        rw [if_neg c3]
        by_cases c4 : (!env.set_second_ok) = true
        · rw [if_pos c4]
          exact ⟨_, rfl⟩
        rw [if_neg c4]
        obtain ⟨w', hw'⟩ := main_dispatch_total env o
          { w1 with sigtstp := Handler.signal_handler, stPitchCents := w1.pitchCentDelta,
                    stTempo := w1.tempo }
        rw [hw']
        exact ⟨_, rfl⟩

/-- C10, counterexample: on an empty input file all three backends return 0
(not mine), and `main` returns 0. -/
theorem main_returns_zero_when_nothing_plays :
    (play_sndfile ieee_double Option.none Option.none
        (World.initial [] Option.none [])).map (fun r => r.1) = some 0 ∧
      (play_speex ieee_double no_ogg Option.none
        (World.initial [] Option.none [])).map (fun r => r.1) = some 0 ∧
      (play_mpeg plain_mpeg Option.none Option.none
        (World.initial [] Option.none [])).map (fun r => r.1) = some 0 ∧
      (main plain_env [] [['f']] (World.initial [] Option.none [])).map (fun r => r.1) =
        some 0 := by
  refine ⟨by decide!, by decide!, by decide!, by decide!⟩

/-- C10, amended: the return value of `main` does not reflect the outcome of
playback. Once the option loop is through (no `-V`, no `-h`), exactly one file
name is given, the file is opened and the two signal dispositions are saved,
`main` returns `EXIT_SUCCESS` (0), whatever the three backends return and
whether or not installing the handlers succeeds. -/
theorem main_returns_zero_after_setup {D : Type} (env : Env D) (opts : List Opt)
    (file : List Char) (w w1 : World) (o : Options)
    (hopts : main_options opts { begin_time := Option.none, end_time := Option.none } w =
      Sum.inr (o, w1))
    (hopen : env.open_ok = true) (hsave1 : env.save_sigtstp_ok = true)
    (hsave2 : env.save_sigint_ok = true) :
    ∃ w', main env opts [file] w = some (0, w') := by
  unfold main
  rw [hopts]
  dsimp only
  rw [if_neg (by rw [hopen]; exact Bool.false_ne_true),
    if_neg (by rw [hsave1]; exact Bool.false_ne_true),
    if_neg (by rw [hsave2]; exact Bool.false_ne_true)]
  by_cases c1 : (!env.set_first_ok) = true
  · rw [if_pos c1]
    exact ⟨_, rfl⟩
  · rw [if_neg c1]
    by_cases c2 : (!env.set_second_ok) = true
    · rw [if_pos c2]
      exact ⟨_, rfl⟩
    · rw [if_neg c2]
      obtain ⟨w', hw'⟩ := main_dispatch_total env o
        { w1 with sigtstp := Handler.signal_handler, stPitchCents := w1.pitchCentDelta,
                  stTempo := w1.tempo }
      rw [hw']
      exact ⟨_, rfl⟩

/-- C10, witness: a run without options on a file no backend recognises. -/
theorem main_returns_zero_after_setup_witness :
    ∃ w', main plain_env [] [['f']] (World.initial [120] Option.none []) = some (0, w') :=
  main_returns_zero_after_setup plain_env [] ['f'] (World.initial [120] Option.none [])
    (World.initial [120] Option.none []) { begin_time := Option.none, end_time := Option.none }
    rfl rfl rfl rfl

/-! ## Theorems: the empty time string -/

/-- C6, counterexample: on the empty string `parse_mad_time` and
`parse_double_time` do not return -1; both return 0 and store the value 0
over the caller's previous value (7 here). -/
theorem empty_string_is_accepted :
    parse_mad_time 7 [] = some (0, 0) ∧ parse_double_time ieee_double 7 [] = some (0, 0) := by
  constructor <;> decide!

/-- C6, amended: for the empty string both parsers succeed: they return 0 and
store zero seconds (for the double parser, the sum `0 + (double) 0` of the one
empty term), whatever the caller's previous value and whatever the double
arithmetic. -/
theorem empty_string_parses_to_zero (timer : mad_timer_t) (D : Type) (ops : DoubleOps D)
    (dtimer : D) :
    parse_mad_time timer [] = some (0, 0) ∧
      parse_double_time ops dtimer [] = some (0, ops.add ops.zero (ops.ofULong 0)) := by
  have h1 : ¬ (peek [] = '-' ∨ peek [] = '+') := by decide
  have h2 : ¬ (peek [] ≠ Char.ofNat 0) := by decide
  have h3 : mad_timer_add mad_timer_zero (mad_timer_set 0 0 0) = 0 := by
    simp [mad_timer_add, mad_timer_zero, mad_timer_set]
  have h4 : mad_term [] = Scan.done (mad_timer_set 0 0 0, []) := by
    unfold mad_term
    rw [sign_switch_nil]
    dsimp only
    rw [List.length_nil, colon_loop_nil]
    dsimp only
    rw [mad_tail_nil]
    simp only [if_false, Bool.false_eq_true]
  have h5 : double_term ops [] = Scan.done (ops.ofULong 0, []) := by
    unfold double_term
    rw [sign_switch_nil]
    dsimp only
    rw [List.length_nil, colon_loop_nil]
    dsimp only
    rw [double_tail_nil]
    simp only [if_false, Bool.false_eq_true, ne_eq, not_true_eq_false]
  have hs : skipSpace [] = [] := rfl
  constructor
  · unfold parse_mad_time
    rw [hs]
    dsimp only
    rw [List.length_nil, mad_terms_succ, h4]
    dsimp only
    rw [if_neg h1]
    dsimp only
    rw [hs, if_neg h2, h3]
  · unfold parse_double_time
    rw [hs]
    dsimp only
    rw [List.length_nil, double_terms_succ, h5]
    dsimp only
    rw [if_neg h1]
    dsimp only
    rw [hs, if_neg h2]

/-! ## Theorems: the installed signal handlers -/

/-- The option loop leaves the signal dispositions alone. -/
theorem main_options_signals (opts : List Opt) :
    ∀ (o : Options) (w : World) (o1 : Options) (w1 : World),
      main_options opts o w = Sum.inr (o1, w1) →
        w1.sigint = w.sigint ∧ w1.sigtstp = w.sigtstp := by
  induction opts with
  | nil =>
    intro o w o1 w1 h
    have e : w1 = w := by
      injection h with h
      injection h with _ h2
      exact h2.symm
    rw [e]
    exact ⟨rfl, rfl⟩
  | cons x rest ih =>
    intro o w o1 w1 h
    cases x with
    | b arg => exact ih _ _ _ _ h
    | e arg => exact ih _ _ _ _ h
    | c arg =>
      have r := ih _ _ _ _ h
      exact r
    | s arg =>
      have r := ih _ _ _ _ h
      exact r
    | t value =>
      have r := ih _ _ _ _ h
      exact r
    | v =>
      have r := ih _ _ _ _ h
      exact r
    | q =>
      have r := ih _ _ _ _ h
      exact r
    | V => cases h
    | h => cases h
    | unknown => exact ih _ _ _ _ h

/-- C11: after the signal setup of `main` has completed without error (the
option loop is through, the file is opened, all four calls of `sigaction`
succeed), the state in which the backends start has `signal_handler` installed
for SIGTSTP only: the disposition of SIGINT is the one the process started
with, since both installing calls name SIGTSTP. -/
theorem signal_setup_leaves_sigint {D : Type} (env : Env D) (opts : List Opt)
    (file : List Char) (w w1 : World) (o : Options)
    (hopts : main_options opts { begin_time := Option.none, end_time := Option.none } w =
      Sum.inr (o, w1))
    (hopen : env.open_ok = true) (hsave1 : env.save_sigtstp_ok = true)
    (hsave2 : env.save_sigint_ok = true) (hset1 : env.set_first_ok = true)
    (hset2 : env.set_second_ok = true) :
    ∃ w2 : World, w2.sigtstp = Handler.signal_handler ∧ w2.sigint = w.sigint ∧
      main env opts [file] w = (main_dispatch env o w2).map (fun w3 => ((0 : Int), w3)) := by
  refine ⟨{ w1 with sigtstp := Handler.signal_handler, stPitchCents := w1.pitchCentDelta,
                    stTempo := w1.tempo }, rfl, (main_options_signals opts _ _ _ _ hopts).1, ?_⟩
  unfold main
  rw [hopts]
  dsimp only
  rw [if_neg (by rw [hopen]; exact Bool.false_ne_true),
    if_neg (by rw [hsave1]; exact Bool.false_ne_true),
    if_neg (by rw [hsave2]; exact Bool.false_ne_true),
    if_neg (by rw [hset1]; exact Bool.false_ne_true),
    if_neg (by rw [hset2]; exact Bool.false_ne_true)]
  cases main_dispatch env o
      { w1 with sigtstp := Handler.signal_handler, stPitchCents := w1.pitchCentDelta,
                stTempo := w1.tempo } with
  | none => rfl
  | some w3 => rfl

/-- C11, witness: a run without options in an environment where every system
call succeeds. -/
theorem signal_setup_leaves_sigint_witness :
    ∃ w2 : World, w2.sigtstp = Handler.signal_handler ∧
      w2.sigint = (World.initial [120] Option.none []).sigint ∧
      main plain_env [] [['f']] (World.initial [120] Option.none []) =
        (main_dispatch plain_env { begin_time := Option.none, end_time := Option.none } w2).map
          (fun w3 => ((0 : Int), w3)) :=
  signal_setup_leaves_sigint plain_env [] ['f'] (World.initial [120] Option.none [])
    (World.initial [120] Option.none []) { begin_time := Option.none, end_time := Option.none }
    rfl rfl rfl rfl rfl rfl

/-- At the end of such a run `main` has returned 0, SIGTSTP is handled by
`signal_handler` and SIGINT still has its original disposition. -/
theorem sigint_original_after_run :
    (main plain_env [] [['f']] (World.initial [120] Option.none [])).map
        (fun r => (r.1, r.2.sigint, r.2.sigtstp)) =
      some (0, Handler.original, Handler.signal_handler) := by
  decide!

/-! ## Theorems: the header callback of the MPEG decoder -/

/-- The comparison is positive exactly when the first time is the greater. -/
theorem mad_timer_compare_pos (a b : mad_timer_t) : mad_timer_compare a b > 0 ↔ a > b := by
  unfold mad_timer_compare
  by_cases h1 : a < b
  · rw [if_pos h1]
    constructor
    · intro h
      exact absurd h (by decide)
    · intro h
      exact absurd h (not_lt.mpr (le_of_lt h1))
  · rw [if_neg h1]
    by_cases h2 : a > b
    · rw [if_pos h2]
      exact ⟨fun _ => h2, fun _ => by decide⟩
    · rw [if_neg h2]
      exact ⟨fun h => absurd h (by decide), fun h => absurd h h2⟩

/-- The comparison is negative exactly when the first time is the smaller. -/
theorem mad_timer_compare_neg (a b : mad_timer_t) : mad_timer_compare a b < 0 ↔ a < b := by
  unfold mad_timer_compare
  by_cases h1 : a < b
  · rw [if_pos h1]
    exact ⟨fun _ => h1, fun _ => by decide⟩
  · rw [if_neg h1]
    by_cases h2 : a > b
    · rw [if_pos h2]
      exact ⟨fun h => absurd h (by decide), fun h => absurd h h1⟩
    · rw [if_neg h2]
      exact ⟨fun h => absurd h (by decide), fun h => absurd h h1⟩

theorem decode_header_stop (p : Player) (d : mad_timer_t)
    (h : p.options &&& PLAYER_OPTION_TIMED ≠ 0 ∧ p.playback_time > p.duration) :
    decode_header p d = (mad_flow.STOP, p) := by
  unfold decode_header
  rw [if_pos ⟨h.1, (mad_timer_compare_pos _ _).mpr h.2⟩]

theorem decode_header_ignore (p : Player) (d : mad_timer_t)
    (h : ¬ (p.options &&& PLAYER_OPTION_TIMED ≠ 0 ∧ p.playback_time > p.duration))
    (h2 : p.options &&& PLAYER_OPTION_SKIP ≠ 0 ∧ p.absolute_time + d < p.start_time) :
    decode_header p d = (mad_flow.IGNORE, { p with absolute_time := p.absolute_time + d }) := by
  unfold decode_header
  rw [if_neg (fun c => h ⟨c.1, (mad_timer_compare_pos _ _).mp c.2⟩)]
  dsimp only
  rw [if_pos ⟨h2.1, (mad_timer_compare_neg _ _).mpr h2.2⟩]
  rfl

theorem decode_header_continue (p : Player) (d : mad_timer_t)
    (h : ¬ (p.options &&& PLAYER_OPTION_TIMED ≠ 0 ∧ p.playback_time > p.duration))
    (h2 : ¬ (p.options &&& PLAYER_OPTION_SKIP ≠ 0 ∧ p.absolute_time + d < p.start_time)) :
    decode_header p d =
      (mad_flow.CONTINUE, { p with absolute_time := p.absolute_time + d,
                                   playback_time := p.playback_time + d }) := by
  unfold decode_header
  rw [if_neg (fun c => h ⟨c.1, (mad_timer_compare_pos _ _).mp c.2⟩)]
  dsimp only
  rw [if_neg (fun c => h2 ⟨c.1, (mad_timer_compare_neg _ _).mp c.2⟩)]
  rfl

/-- One call with a non-negative frame duration keeps `playback_time ≤ absolute_time`. -/
theorem decode_header_keeps_order (p : Player) (d : mad_timer_t) (hd : 0 ≤ d)
    (h : p.playback_time ≤ p.absolute_time) :
    (decode_header p d).2.playback_time ≤ (decode_header p d).2.absolute_time := by
  by_cases c1 : p.options &&& PLAYER_OPTION_TIMED ≠ 0 ∧ p.playback_time > p.duration
  · rw [decode_header_stop p d c1]
    exact h
  · by_cases c2 : p.options &&& PLAYER_OPTION_SKIP ≠ 0 ∧ p.absolute_time + d < p.start_time
    · rw [decode_header_ignore p d c1 c2]
      show p.playback_time ≤ p.absolute_time + d
      linarith
    · rw [decode_header_continue p d c1 c2]
      show p.playback_time + d ≤ p.absolute_time + d
      linarith

theorem decode_headers_keep_order (ds : List mad_timer_t) :
    ∀ p : Player, (∀ d ∈ ds, 0 ≤ d) → p.playback_time ≤ p.absolute_time →
      (ds.foldl (fun q d => (decode_header q d).2) p).playback_time ≤
        (ds.foldl (fun q d => (decode_header q d).2) p).absolute_time := by
  induction ds with
  | nil => intro p _ h; exact h
  | cons d ds ih =>
    intro p hds h
    rw [List.foldl_cons]
    apply ih
    · intro x hx
      exact hds x (List.mem_cons_of_mem _ hx)
    · exact decode_header_keeps_order p d (hds d (List.mem_cons_self _ _)) h

/-- C12: the header callback `decode_header` follows the specified steps for every
player state `p` and frame duration `d`. It returns STOP if and only if the
TIMED option is set and `playback_time > duration`, and then the state is
unchanged. Otherwise `absolute_time` is advanced by `d`, and the callback
returns IGNORE if and only if the SKIP option is set and the advanced
`absolute_time` is less than `start_time`, and then nothing else has changed.
Otherwise `playback_time` is advanced by `d` as well and the callback returns
CONTINUE. Consequently `playback_time ≤ absolute_time` is kept by every
sequence of calls with non-negative frame durations, in particular from the
zero state. -/
theorem decode_header_follows_steps (p : Player) (d : mad_timer_t) :
    ((decode_header p d).1 = mad_flow.STOP ↔
        (p.options &&& PLAYER_OPTION_TIMED ≠ 0 ∧ p.playback_time > p.duration)) ∧
      ((decode_header p d).1 = mad_flow.STOP → (decode_header p d).2 = p) ∧
      ((decode_header p d).1 ≠ mad_flow.STOP →
        (decode_header p d).2.absolute_time = p.absolute_time + d ∧
          ((decode_header p d).1 = mad_flow.IGNORE ↔
            (p.options &&& PLAYER_OPTION_SKIP ≠ 0 ∧ p.absolute_time + d < p.start_time))) ∧
      ((decode_header p d).1 = mad_flow.IGNORE →
        (decode_header p d).2 = { p with absolute_time := p.absolute_time + d }) ∧
      ((decode_header p d).1 ≠ mad_flow.STOP → (decode_header p d).1 ≠ mad_flow.IGNORE →
        (decode_header p d).1 = mad_flow.CONTINUE ∧
          (decode_header p d).2 =
            { p with absolute_time := p.absolute_time + d,
                     playback_time := p.playback_time + d }) ∧
      (∀ ds : List mad_timer_t, (∀ x ∈ ds, 0 ≤ x) → p.playback_time ≤ p.absolute_time →
        (ds.foldl (fun q x => (decode_header q x).2) p).playback_time ≤
          (ds.foldl (fun q x => (decode_header q x).2) p).absolute_time) := by
  by_cases c1 : p.options &&& PLAYER_OPTION_TIMED ≠ 0 ∧ p.playback_time > p.duration
  · have e := decode_header_stop p d c1
    refine ⟨?_, ?_, ?_, ?_, ?_, ?_⟩
    · rw [e]
      exact ⟨fun _ => c1, fun _ => rfl⟩
    · intro _
      rw [e]
    · intro h
      rw [e] at h
      exact absurd rfl h
    · intro h
      rw [e] at h
      cases h
    · intro h
      rw [e] at h
      exact absurd rfl h
    · exact fun ds hds h => decode_headers_keep_order ds p hds h
  · by_cases c2 : p.options &&& PLAYER_OPTION_SKIP ≠ 0 ∧ p.absolute_time + d < p.start_time
    · have e := decode_header_ignore p d c1 c2
      refine ⟨?_, ?_, ?_, ?_, ?_, ?_⟩
      · rw [e]
        exact ⟨fun h => (by cases h), fun h => absurd h c1⟩
      · intro h
        rw [e] at h
        cases h
      · intro _
        rw [e]
        exact ⟨rfl, fun _ => c2, fun _ => rfl⟩
      · intro _
        rw [e]
      · intro _ h
        rw [e] at h
        exact absurd rfl h
      · exact fun ds hds h => decode_headers_keep_order ds p hds h
    · have e := decode_header_continue p d c1 c2
      refine ⟨?_, ?_, ?_, ?_, ?_, ?_⟩
      · rw [e]
        exact ⟨fun h => (by cases h), fun h => absurd h c1⟩
      · intro h
        rw [e] at h
        cases h
      · intro _
        rw [e]
        exact ⟨rfl, fun h => (by cases h), fun h => absurd h c2⟩
      · intro h
        rw [e] at h
        cases h
      · intro _ _
        rw [e]
        exact ⟨rfl, rfl⟩
      · exact fun ds hds h => decode_headers_keep_order ds p hds h

/-- C12, witness: seven frames of one second for a player with both options
set, started from the zero state. -/
theorem decode_header_follows_steps_witness :
    (List.foldl (fun q x => (decode_header q x).2)
        { options := PLAYER_OPTION_SKIP ||| PLAYER_OPTION_TIMED, length := 0,
          absolute_time := mad_timer_zero, playback_time := mad_timer_zero,
          start_time := 2, duration := 3 }
        [1, 1, 1, 1, 1, 1, 1]).playback_time ≤
      (List.foldl (fun q x => (decode_header q x).2)
        { options := PLAYER_OPTION_SKIP ||| PLAYER_OPTION_TIMED, length := 0,
          absolute_time := mad_timer_zero, playback_time := mad_timer_zero,
          start_time := 2, duration := 3 }
        [1, 1, 1, 1, 1, 1, 1]).absolute_time :=
  (decode_header_follows_steps
    { options := PLAYER_OPTION_SKIP ||| PLAYER_OPTION_TIMED, length := 0,
      absolute_time := mad_timer_zero, playback_time := mad_timer_zero,
      start_time := 2, duration := 3 } 1).2.2.2.2.2 [1, 1, 1, 1, 1, 1, 1]
    (by decide) (le_refl _)

/-- The same run in figures: one frame is ignored, four are played, the last
two calls return STOP; 5 seconds of stream time and 4 seconds of playback. -/
theorem decode_header_sample_run :
    (fun q : Player => (q.absolute_time, q.playback_time))
      (List.foldl (fun q x => (decode_header q x).2)
        { options := PLAYER_OPTION_SKIP ||| PLAYER_OPTION_TIMED, length := 0,
          absolute_time := mad_timer_zero, playback_time := mad_timer_zero,
          start_time := 2, duration := 3 }
        [1, 1, 1, 1, 1, 1, 1]) = (5, 4) := by
  decide!

/-! ## Theorems: scaling of samples -/

theorem wrapInt_of_isInt32 (x : Int) (h : isInt32 x) : wrapInt x = x := by
  unfold isInt32 at h
  unfold wrapInt
  omega

/-- The function `scale` with its constants worked out; the shift is the floor
division by `2^13`. -/
theorem scale_unfold (s : Int) :
    scale s =
      (if wrapInt (s + 4096) ≥ 268435456 then 268435455
        else if wrapInt (s + 4096) < -268435456 then -268435456
        else wrapInt (s + 4096)) / 8192 := by
  unfold scale
  rw [Int.shiftRight_eq_div_pow]
  rfl

theorem quantise16_unfold (s : Int) :
    quantise16 s = max (-32768) (min 32767 ((s + 4096) / 8192)) := by
  unfold quantise16
  rw [Int.fdiv_eq_ediv _ (by norm_num)]
  rfl

theorem scale_fits_int16 (s : Int) : -32768 ≤ scale s ∧ scale s ≤ 32767 := by
  rw [scale_unfold]
  split_ifs <;> omega

theorem scale_eq_quantise16 (s : Int) (hlo : -2 ^ 31 ≤ s) (hhi : s ≤ 2 ^ 31 - 1 - 2 ^ 12) :
    scale s = quantise16 s := by
  have hw : wrapInt (s + 4096) = s + 4096 := by
    apply wrapInt_of_isInt32
    unfold isInt32
    omega
  rw [scale_unfold, quantise16_unfold, hw]
  split_ifs <;> omega

theorem quantise16_mono (s t : Int) (h : s ≤ t) : quantise16 s ≤ quantise16 t := by
  rw [quantise16_unfold, quantise16_unfold]
  omega

/-- C13: the clip of `scale` fails for the largest samples. For every 32 bit
sample `s` the result fits a signed 16 bit integer. For `s ≤ 2^31 - 1 - 2^12`
the result is `clamp(floor((s + 2^12) / 2^13), -32768, 32767)`, and `scale` is
monotonically non-decreasing up to `s`. For the samples above that bound the
rounding addition `s + 2^12` does not fit the 32 bit variable and wraps to a
negative value, which the clip takes for an underflow: `scale s` is -32768
where the formula gives 32767, below the result 32767 of the smaller sample
`2^31 - 1 - 2^12`. -/
theorem scale_clips_largest_samples_to_minimum (s : Int) (hs : isInt32 s) :
    (-32768 ≤ scale s ∧ scale s ≤ 32767) ∧
      (s ≤ 2 ^ 31 - 1 - 2 ^ 12 →
        scale s = quantise16 s ∧ ∀ t : Int, isInt32 t → t ≤ s → scale t ≤ scale s) ∧
      (2 ^ 31 - 1 - 2 ^ 12 < s →
        scale s = -32768 ∧ quantise16 s = 32767 ∧ scale s < scale (2 ^ 31 - 1 - 2 ^ 12)) := by
  refine ⟨scale_fits_int16 s, ?_, ?_⟩
  · intro h
    refine ⟨scale_eq_quantise16 s hs.1 h, ?_⟩
    intro t ht hts
    rw [scale_eq_quantise16 s hs.1 h, scale_eq_quantise16 t ht.1 (le_trans hts h)]
    exact quantise16_mono t s hts
  · intro h
    have hw : wrapInt (s + 4096) = s + 4096 - 2 ^ 32 := by
      unfold isInt32 at hs
      unfold wrapInt
      omega
    have h1 : scale s = -32768 := by
      rw [scale_unfold, hw]
      unfold isInt32 at hs
      split_ifs <;> omega
    have h2 : quantise16 s = 32767 := by
      rw [quantise16_unfold]
      omega
    have h3 : scale (2 ^ 31 - 1 - 2 ^ 12) = 32767 := by decide
    refine ⟨h1, h2, ?_⟩
    rw [h1, h3]
    decide

/-- C13, witness: the largest 32 bit sample. -/
theorem scale_clips_largest_samples_to_minimum_witness :
    isInt32 (2 ^ 31 - 1) ∧ scale (2 ^ 31 - 1) = -32768 ∧ quantise16 (2 ^ 31 - 1) = 32767 ∧
      scale (2 ^ 31 - 1) < scale (2 ^ 31 - 1 - 2 ^ 12) :=
  ⟨by unfold isInt32; decide,
    (scale_clips_largest_samples_to_minimum (2 ^ 31 - 1) (by unfold isInt32; decide)).2.2
      (by decide)⟩

end Yatm
